import Mathlib

/-!
# Verification of the marketing-crawler core

A shallow embedding of the crawl-discovery engine (`smart_crawler.py`), the
retrying content fetcher (`content_crawler.py`), the producer/consumer
extraction pipeline (`run.py`) and the AI accumulation step
(`value_extraction.py`), together with proofs settling the specification
claims about them.

Python strings are modelled as byte lists (`Str := List Nat`): a Python `str`
is identified with its UTF-8 byte sequence.  The CPython 3.11 semantics of
`urllib.parse.urlparse`, `parse_qs`, `urlencode`, `quote_plus` and `unquote`
are reproduced at byte level (percent-decoding yields raw bytes instead of
UTF-8-decoding them; this coincides with CPython whenever the decoded bytes
form valid UTF-8, which is in particular the case on every output of
`urlencode`).  Leading/trailing-whitespace stripping of `urlsplit` is not
modelled: the URLs under consideration contain no whitespace bytes.
-/

/-- A Python string, viewed as its byte sequence. -/
abbrev Str := List Nat

/-- Byte sequence of an ASCII string literal (code points = bytes). -/
def bs (s : String) : Str := s.data.map Char.toNat

/-- ASCII uppercase letter. -/
def isUpperB (b : Nat) : Bool := 65 ≤ b && b ≤ 90

/-- ASCII lowercase letter. -/
def isLowerB (b : Nat) : Bool := 97 ≤ b && b ≤ 122

/-- ASCII letter. -/
def isAlphaB (b : Nat) : Bool := isUpperB b || isLowerB b

/-- ASCII digit. -/
def isDigitB (b : Nat) : Bool := 48 ≤ b && b ≤ 57

/-- ASCII letter or digit. -/
def isAlnumB (b : Nat) : Bool := isAlphaB b || isDigitB b

/-- `str.lower` on a single ASCII byte. -/
def lowerByte (b : Nat) : Nat := if isUpperB b then b + 32 else b

/-- `str.lower` on a byte string (ASCII portion; non-ASCII bytes are
left unchanged, which is all the crawler's URL handling relies on). -/
def lowerStr (s : Str) : Str := s.map lowerByte

/-- Bytes allowed in a URL scheme by `urllib.parse`
(`scheme_chars = letters + digits + '+-.'`). -/
def isSchemeByte (b : Nat) : Bool := isAlnumB b || b == 43 || b == 45 || b == 46

/-- Split a byte string at the first occurrence of `c`; the separator is
dropped.  `none` when `c` does not occur. -/
def splitFirst (c : Nat) : Str → Option (Str × Str)
  | [] => none
  | b :: t =>
    if b = c then some ([], t)
    else
      match splitFirst c t with
      | some (l, r) => some (b :: l, r)
      | none => none

/-- Split a byte string at the last occurrence of `c`. -/
def splitLast (c : Nat) (s : Str) : Option (Str × Str) :=
  match splitFirst c s.reverse with
  | some (rl, ll) => some (ll.reverse, rl.reverse)
  | none => none

/-- Longest prefix containing no byte from `stops`, together with the rest
(`urllib.parse._splitnetloc`). -/
def takeUntilAny (stops : List Nat) : Str → Str × Str
  | [] => ([], [])
  | b :: t =>
    if b ∈ stops then ([], b :: t)
    else
      let p := takeUntilAny stops t
      (b :: p.1, p.2)

/-- `str.split(c)`: split at every occurrence of the separator byte. -/
def splitAll (c : Nat) : Str → List Str
  | [] => [[]]
  | b :: t =>
    if b = c then [] :: splitAll c t
    else
      match splitAll c t with
      | h :: rest => (b :: h) :: rest
      | [] => [[b]]

/-- Result of `urllib.parse.urlparse`. -/
structure UrlParts where
  scheme : Str
  netloc : Str
  path : Str
  params : Str
  query : Str
  fragment : Str
  deriving Repr, DecidableEq

/-- The scheme-extraction step of `urlsplit` (CPython 3.11): a scheme is
recognised when a `:` occurs at position `> 0`, the first byte is an ASCII
letter and everything before the `:` is a scheme byte; it is lowercased. -/
def splitScheme (u : Str) : Str × Str :=
  match splitFirst 58 u with
  | some (pre, post) =>
    if pre ≠ [] ∧ isAlphaB (pre.headD 0) ∧ pre.all isSchemeByte then
      (pre.map lowerByte, post)
    else ([], u)
  | none => ([], u)

/-- `urllib.parse.urlsplit` (with `allow_fragments=True`): scheme, then
`//netloc` delimited by `/?#`, then the fragment after the first `#`, then
the query after the first `?`. -/
def urlsplitModel (u : Str) : UrlParts :=
  let sp := splitScheme u
  let scheme := sp.1
  let nl :=
    if sp.2.take 2 = [47, 47] then takeUntilAny [47, 63, 35] (sp.2.drop 2)
    else ([], sp.2)
  let fr :=
    match splitFirst 35 nl.2 with
    | some (a, b) => (a, b)
    | none => (nl.2, [])
  let pq :=
    match splitFirst 63 fr.1 with
    | some (a, b) => (a, b)
    | none => (fr.1, [])
  ⟨scheme, nl.1, pq.1, [], pq.2, fr.2⟩

/-- Schemes for which `urlparse` separates path parameters
(`urllib.parse.uses_params`). -/
def usesParams : List Str :=
  [[], bs ("ftp"), bs ("hdl"), bs ("prms"), bs ("http"), bs ("imap"),
   bs ("mailto"), bs ("news"), bs ("nntp"), bs ("prospero"), bs ("rtsp"),
   bs ("rtspu"), bs ("sftp"), bs ("sip"), bs ("sips"), bs ("snews"),
   bs ("svn"), bs ("svn+ssh"), bs ("telnet"), bs ("https"), bs ("shttp")]

/-- `urllib.parse._splitparams`: split `;params` off the last path segment
(a `;` before the last `/` is not touched). -/
def splitParams (p : Str) : Str × Str :=
  match splitLast 47 p with
  | some (before, after) =>
    match splitFirst 59 after with
    | some (a2, rest) => (before ++ 47 :: a2, rest)
    | none => (p, [])
  | none =>
    match splitFirst 59 p with
    | some (a, rest) => (a, rest)
    | none => (p, [])

/-- `urllib.parse.urlparse`: `urlsplit` plus path-parameter separation for
schemes in `uses_params`. -/
def urlparseModel (u : Str) : UrlParts :=
  let sp := urlsplitModel u
  if sp.scheme ∈ usesParams ∧ 59 ∈ sp.path then
    let pp := splitParams sp.path
    { sp with path := pp.1, params := pp.2 }
  else sp

/-- Is `b` an ASCII hex digit? -/
def isHexB (b : Nat) : Bool :=
  isDigitB b || (65 ≤ b && b ≤ 70) || (97 ≤ b && b ≤ 102)

/-- Numeric value of a hex digit byte. -/
def hexVal (b : Nat) : Nat :=
  if 48 ≤ b ∧ b ≤ 57 then b - 48
  else if 65 ≤ b ∧ b ≤ 70 then b - 55
  else if 97 ≤ b ∧ b ≤ 102 then b - 87
  else 0

/-- Uppercase hex digit byte of a value `< 16` (as produced by
`urllib.parse.quote`). -/
def hexUpper (n : Nat) : Nat := if n < 10 then 48 + n else 55 + n

/-- Percent-decoding (`urllib.parse.unquote` at byte level): `%HH` with two
hex digits becomes the byte `HH`; a `%` not followed by two hex digits is
kept literally, exactly as in CPython. -/
def pctDecode : Str → Str
  | [] => []
  | 37 :: h :: l :: t2 =>
    if isHexB h ∧ isHexB l then (hexVal h * 16 + hexVal l) :: pctDecode t2
    else 37 :: pctDecode (h :: l :: t2)
  | 37 :: t => 37 :: pctDecode t
  | b :: t => b :: pctDecode t

/-- The `.replace('+', ' ')` step of `parse_qsl`. -/
def plusToSpace (s : Str) : Str := s.map (fun b => if b = 43 then 32 else b)

/-- `unquote_plus`: `+` becomes space, then percent-decoding. -/
def unquotePlus (s : Str) : Str := pctDecode (plusToSpace s)

/-- Bytes never quoted by `urllib.parse.quote`
(letters, digits and `_.-~`). -/
def isSafeByte (b : Nat) : Bool := isAlnumB b || b == 95 || b == 46 || b == 45 || b == 126

/-- `quote_plus` on a single byte: safe bytes pass through, space becomes
`+`, everything else becomes `%HH` with uppercase hex. -/
def quoteByte (b : Nat) : Str :=
  if isSafeByte b then [b]
  else if b = 32 then [43]
  else [37, hexUpper (b / 16), hexUpper (b % 16)]

/-- `urllib.parse.quote_plus` on a byte string. -/
def quotePlus : Str → Str
  | [] => []
  | b :: t => quoteByte b ++ quotePlus t

/-- `urllib.parse.parse_qsl(qs, keep_blank_values=True)`: split on `&`,
drop empty chunks, split each chunk at the first `=` (a chunk without `=`
gets a blank value), and unquote names and values. -/
def parseQsl (qs : Str) : List (Str × Str) :=
  (splitAll 38 qs).filterMap fun chunk =>
    if chunk = [] then none
    else
      match splitFirst 61 chunk with
      | some (n, v) => some (unquotePlus n, unquotePlus v)
      | none => some (unquotePlus chunk, [])

/-- Insert one `(name, value)` pair into the ordered multi-dict built by
`parse_qs`: append the value to an existing key, else add the key at the
end (Python dict insertion order). -/
def insertQs (acc : List (Str × List Str)) (kv : Str × Str) : List (Str × List Str) :=
  match acc with
  | [] => [(kv.1, [kv.2])]
  | (k, vs) :: rest =>
    if k = kv.1 then (k, vs ++ [kv.2]) :: rest else (k, vs) :: insertQs rest kv

/-- `urllib.parse.parse_qs(qs, keep_blank_values=True)` as an ordered
association list. -/
def parseQs (qs : Str) : List (Str × List Str) := (parseQsl qs).foldl insertQs []

/-- Join chunks with `&` (the final join inside `urlencode`). -/
def joinAmp : List Str → Str
  | [] => []
  | [x] => x
  | x :: xs => x ++ 38 :: joinAmp xs

/-- The `k=v` chunks emitted by `urlencode(d, doseq=True)`, in order. -/
def encodeChunks : List (Str × List Str) → List Str
  | [] => []
  | (k, vs) :: rest => vs.map (fun v => quotePlus k ++ 61 :: quotePlus v) ++ encodeChunks rest

/-- `urllib.parse.urlencode(d, doseq=True)` on an ordered multi-dict. -/
def urlencodeQs (L : List (Str × List Str)) : Str := joinAmp (encodeChunks L)

/-- `SmartCrawler.tracking_params`. -/
def trackingParams : List Str :=
  [bs ("utm_source"), bs ("utm_medium"), bs ("utm_campaign"), bs ("utm_term"),
   bs ("utm_content"), bs ("fbclid"), bs ("gclid"), bs ("msclkid"),
   bs ("mc_cid"), bs ("mc_eid"), bs ("ref"), bs ("source"), bs ("promo"),
   bs ("_ga"), bs ("_gl"), bs ("referrer")]

/-- `str.rstrip('/')`: drop every trailing `/`. -/
def rstripSlash (s : Str) : Str := (s.reverse.dropWhile (fun b => b = 47)).reverse

/-- `SmartCrawler.clean_url`: parse, drop tracking query parameters,
reassemble `scheme://netloc path [? re-encoded query]`, and strip trailing
slashes when the parsed path is longer than `/`. -/
def cleanUrl (u : Str) : Str :=
  let parsed := urlparseModel u
  let base :=
    if parsed.query ≠ [] then
      let params := parseQs parsed.query
      let cleanedParams := params.filter fun kv => decide (kv.1 ∉ trackingParams)
      if cleanedParams ≠ [] then
        parsed.scheme ++ 58 :: 47 :: 47 :: (parsed.netloc ++ parsed.path ++ 63 :: urlencodeQs cleanedParams)
      else
        parsed.scheme ++ 58 :: 47 :: 47 :: (parsed.netloc ++ parsed.path)
    else
      parsed.scheme ++ 58 :: 47 :: 47 :: (parsed.netloc ++ parsed.path)
  if base.getLast? = some 47 ∧ parsed.path.length > 1 then rstripSlash base else base

/-- `list.isInfixOf`-style containment test for the Python `in` operator on
strings. -/
def containsSub (pat : Str) : Str → Bool
  | [] => decide (pat = [])
  | b :: t => pat.isPrefixOf (b :: t) || containsSub pat t

/-- `SmartCrawler.skip_patterns`. -/
def skipPatterns : List Str :=
  [bs (".pdf"), bs (".doc"), bs (".docx"), bs (".xls"), bs (".xlsx"),
   bs (".ppt"), bs (".pptx"), bs (".zip"), bs (".rar"), bs (".tar"),
   bs (".gz"), bs (".jpg"), bs (".jpeg"), bs (".png"), bs (".gif"),
   bs (".svg"), bs (".ico"), bs (".webp"), bs (".mp3"), bs (".mp4"),
   bs (".avi"), bs (".mov"), bs (".wmv"), bs (".css"), bs (".js"),
   bs (".json"), bs (".xml"), bs ("/wp-json/"), bs ("/wp-content/uploads/"),
   bs ("/wp-admin/"), bs ("/api/"), bs ("/feed/"), bs ("/rss/"),
   bs ("?replytocom="), bs ("?attachment_id="), bs ("/trackback/")]

/-- `SmartCrawler.should_skip_url`: does the lowercased URL contain any skip
pattern? -/
def shouldSkipUrl (u : Str) : Bool :=
  skipPatterns.any fun pat => containsSub pat (lowerStr u)

/-- `path.strip('/')`. -/
def stripSlashes (s : Str) : Str := rstripSlash (s.dropWhile (fun b => b = 47))

/-- `[p for p in path.strip('/').split('/') if p]` — the non-empty path
segments. -/
def pathParts (path : Str) : List Str :=
  (splitAll 47 (stripSlashes path)).filter fun p => decide (p ≠ [])

/-- `SmartCrawler.calculate_priority`, translated statement by statement:
homepage short-circuit, base 50, context bonus, segment-count bonus, crawl
depth penalty, query penalty, clamp to `[0, 100]`. -/
def calculatePriority (url : Str) (context : Str) (depth : Nat) : Int :=
  let path := (urlparseModel url).path
  if path = bs ("/") ∨ path = [] then 100
  else
    let score : Int := 50
    let score := score +
      (if context = bs ("nav") then 30
       else if context = bs ("footer") then 20
       else if context = bs ("homepage") then 25
       else 0)
    let urlDepth := (pathParts path).length
    let score := score +
      (if urlDepth = 1 then 20
       else if urlDepth = 2 then 10
       else if urlDepth = 3 then 0
       else if urlDepth = 4 then (-10)
       else (-20))
    let score := score - (depth : Int) * 5
    let score := if 63 ∈ url then score - 5 else score
    max 0 (min 100 score)

/-- §4.5 context bonus, written from the spec's wording. -/
def specContextBonus (context : Str) : Int :=
  if context = bs ("nav") then 30
  else if context = bs ("footer") then 20
  else if context = bs ("homepage") then 25
  else 0

/-- §4.5 path-segment-count bonus, written from the spec's wording
(1 segment +20, 2 +10, 3 +0, 4 −10, anything else −20). -/
def specSegmentBonus : Nat → Int
  | 1 => 20
  | 2 => 10
  | 3 => 0
  | 4 => -10
  | _ => -20

/-- §4.5 priority formula, written from the spec's wording: root path scores
a fixed 100, otherwise clamp of base 50 plus bonuses minus penalties. -/
def specPriority (url : Str) (context : Str) (depth : Nat) : Int :=
  let path := (urlparseModel url).path
  if path = bs ("/") ∨ path = [] then 100
  else
    max 0 (min 100
      (50 + specContextBonus context + specSegmentBonus (pathParts path).length
        - 5 * (depth : Int) - (if 63 ∈ url then 5 else 0)))

/-- `SmartCrawler.parse_sitemap`, successful-fetch branch: each `<loc>` text
is cleaned and appended unless it matches a skip pattern.  The raw `<loc>`
strings of the fetched sitemap are the input; network failure corresponds to
an empty input list. -/
def parseSitemap (locs : List Str) : List Str :=
  locs.filterMap fun l =>
    let c := cleanUrl l
    if shouldSkipUrl c then none else some c

/-- Mutable state of `SmartCrawler.discover_important_pages`.
`discovered`/`urlDepths` are the `discovered_urls`/`url_depths` dicts in
insertion order, `toCrawl` the BFS deque (head = front), `crawled` the
visited set.  `extractedLog` is a ghost log of the pages passed to
`extract_all_links`, in order. -/
structure CrawlerState where
  discovered : List (Str × Int)
  urlDepths : List (Str × Nat)
  toCrawl : List (Str × Nat)
  crawled : List Str
  extractedLog : List Str
  deriving Repr, DecidableEq

/-- Dict lookup (first entry wins, as inserts only happen on fresh keys). -/
def lookupD {α : Type} (key : Str) : List (Str × α) → Option α
  | [] => none
  | (k, v) :: t => if k = key then some v else lookupD key t

/-- One iteration of the sitemap-seeding loop: a URL not yet discovered is
scored with context `'sitemap'` at depth 1 and recorded at depth 1.  (The
loop body also computes a `depth` variable from the path, but never uses
it.)  Note there is no budget check here. -/
def seedStep (st : CrawlerState) (url : Str) : CrawlerState :=
  if lookupD url st.discovered = none then
    { st with
      discovered := st.discovered ++ [(url, calculatePriority url (bs ("sitemap")) 1)]
      urlDepths := st.urlDepths ++ [(url, 1)] }
  else st

/-- State after the initialisation of `discover_important_pages`: homepage
discovered at priority 100 and depth 0, frontier seeded with `(base, 0)`,
then the sitemap loop folded over `sitemapUrls`. -/
def seedSitemap (baseUrl : Str) (sitemapUrls : List Str) : CrawlerState :=
  sitemapUrls.foldl seedStep
    { discovered := [(baseUrl, 100)]
      urlDepths := [(baseUrl, 0)]
      toCrawl := [(baseUrl, 0)]
      crawled := []
      extractedLog := [] }

/-- The inner `for url, context in page_links.items()` loop of the BFS:
break once the budget is reached; otherwise score the link and, if the URL
is new, record it at depth `currentDepth + 1` and enqueue it when that depth
is within `maxDepth`. -/
def processLinks (maxUrls maxDepth currentDepth : Nat) :
    List (Str × Str) → CrawlerState → CrawlerState
  | [], st => st
  | (url, context) :: rest, st =>
    if st.discovered.length ≥ maxUrls then st
    else if lookupD url st.discovered = none then
      if currentDepth + 1 ≤ maxDepth then
        processLinks maxUrls maxDepth currentDepth rest
          { st with
            discovered := st.discovered ++ [(url, calculatePriority url context (currentDepth + 1))]
            urlDepths := st.urlDepths ++ [(url, currentDepth + 1)]
            toCrawl := st.toCrawl ++ [(url, currentDepth + 1)] }
      else
        processLinks maxUrls maxDepth currentDepth rest
          { st with
            discovered := st.discovered ++ [(url, calculatePriority url context (currentDepth + 1))]
            urlDepths := st.urlDepths ++ [(url, currentDepth + 1)] }
    else processLinks maxUrls maxDepth currentDepth rest st

/-- The breadth-first `while to_crawl and len(discovered) < max_urls` loop,
with explicit fuel (each fuel unit is one loop iteration; the invariants
below hold for every fuel, hence at every point of the walk).  `links u`
is the page environment: the `(url, context)` pairs that
`extract_all_links` returns for page `u`. -/
def crawlLoop (links : Str → List (Str × Str)) (maxUrls maxDepth : Nat) :
    Nat → CrawlerState → CrawlerState
  | 0, st => st
  | fuel + 1, st =>
    match st.toCrawl with
    | [] => st
    | (currentUrl, currentDepth) :: restQ =>
      if st.discovered.length < maxUrls then
        if currentUrl ∈ st.crawled ∨ currentDepth > maxDepth then
          crawlLoop links maxUrls maxDepth fuel { st with toCrawl := restQ }
        else
          crawlLoop links maxUrls maxDepth fuel
            (processLinks maxUrls maxDepth currentDepth (links currentUrl)
              { st with
                toCrawl := restQ
                crawled := currentUrl :: st.crawled
                extractedLog := st.extractedLog ++ [currentUrl] })
      else st

/-- `SmartCrawler.discover_important_pages`: initialisation and sitemap
seeding followed by the breadth-first walk. -/
def discoverImportantPages (links : Str → List (Str × Str)) (baseUrl : Str)
    (sitemapLocs : List Str) (maxUrls maxDepth fuel : Nat) : CrawlerState :=
  crawlLoop links maxUrls maxDepth fuel (seedSitemap baseUrl (parseSitemap sitemapLocs))

/-! ## Content fetcher with retries (`content_crawler.py`) -/

/-- Outcome of one attempt of the `requests.get` + parsing block inside
`extract_clean_content`: success carries the extracted page payload (the
HTML-derived fields, opaque here); the three exception classes mirror
`requests.exceptions.Timeout`, `requests.exceptions.RequestException` and
the catch-all `Exception` handler. -/
inductive FetchOutcome where
  | success (content : Str)
  | timeoutErr (msg : Str)
  | requestErr (msg : Str)
  | otherErr (msg : Str)
  deriving Repr, DecidableEq

/-- The error field of a failure result, mirroring the f-strings
`'Timeout after {n} attempts: {e}'`, `'Request failed after {n} attempts:
{e}'` and `str(e)`. -/
inductive FetchError where
  | timeoutAfter (attempts : Nat) (msg : Str)
  | requestFailedAfter (attempts : Nat) (msg : Str)
  | extractionError (msg : Str)
  deriving Repr, DecidableEq

/-- The dict returned by `extract_clean_content` (timestamps and the
HTML-derived fields other than the raw content are omitted: they play no
role in the claims). -/
structure ExtractResult where
  content : Str
  error : Option FetchError
  extraction_successful : Bool
  attempts : Nat
  deriving Repr, DecidableEq

/-- Trace of one call to `extract_clean_content`: the returned value
(`none` models the implicit Python `None` when the `for` loop body never
runs, i.e. `max_retries = 0`), the `time.sleep` durations in order, and the
0-based indices of the attempts performed. -/
structure RetryTrace where
  result : Option ExtractResult
  sleeps : List Nat
  attempted : List Nat
  deriving Repr, DecidableEq

/-- The `for attempt in range(max_retries)` loop of `extract_clean_content`.
`attempt` is the 0-based loop variable and `remaining` the number of loop
iterations left (`remaining = maxRetries - attempt`), so Python's
final-attempt test `attempt < max_retries - 1` is `remaining > 1`.  On a
transient error before the final attempt the loop sleeps
`2 ** (attempt + 1)` seconds and retries; on the final attempt it returns a
failure dict with `attempts = max_retries`; a non-transient error returns
immediately with `attempts = attempt + 1`. -/
def retryLoop (fetch : Nat → FetchOutcome) (maxRetries : Nat) :
    Nat → Nat → RetryTrace
  | _, 0 => ⟨none, [], []⟩
  | attempt, remaining + 1 =>
    match fetch attempt with
    | .success c =>
      ⟨some ⟨c, none, true, attempt + 1⟩, [], [attempt]⟩
    | .timeoutErr m =>
      if remaining = 0 then
        ⟨some ⟨[], some (.timeoutAfter maxRetries m), false, maxRetries⟩, [], [attempt]⟩
      else
        let t := retryLoop fetch maxRetries (attempt + 1) remaining
        ⟨t.result, 2 ^ (attempt + 1) :: t.sleeps, attempt :: t.attempted⟩
    | .requestErr m =>
      if remaining = 0 then
        ⟨some ⟨[], some (.requestFailedAfter maxRetries m), false, maxRetries⟩, [], [attempt]⟩
      else
        let t := retryLoop fetch maxRetries (attempt + 1) remaining
        ⟨t.result, 2 ^ (attempt + 1) :: t.sleeps, attempt :: t.attempted⟩
    | .otherErr m =>
      ⟨some ⟨[], some (.extractionError m), false, attempt + 1⟩, [], [attempt]⟩

/-- `ContentExtractor.extract_clean_content`, as a function of the
per-attempt fetch outcomes. -/
def extractCleanContent (fetch : Nat → FetchOutcome) (maxRetries : Nat) : RetryTrace :=
  retryLoop fetch maxRetries 0 maxRetries

/-- A fetch outcome that triggers the retry path (timeout or transient
request error). -/
def FetchOutcome.transient : FetchOutcome → Bool
  | .timeoutErr _ => true
  | .requestErr _ => true
  | _ => false

/-! ## Pipeline consumer (`run.py`) and AI accumulation step
(`value_extraction.py`) -/

/-- What the AI extraction call inside `extract_value_from_file` logs via
`log_openai_request`: the raw response on success, `'ERROR: ...'` on any
caught exception. -/
inductive AILogEntry where
  | logged (response : Str)
  | loggedError (msg : Str)
  deriving Repr, DecidableEq

/-- `extract_value_from_file` (`value_extraction.py`): build the prompt,
call the chat-completion API (`callAI`, which may raise), parse its JSON
body (`parseJson`, which may raise), log, and return the extracted data;
the surrounding `try/except` catches any exception, logs the error and
returns `current_data` unchanged.  `S` is the accumulated company-data
snapshot. -/
def extractValueFromFile {S : Type} (callAI : Str → Except Str Str)
    (parseJson : Str → Except Str S) (prompt : Str) (currentData : S) :
    S × AILogEntry :=
  match callAI prompt with
  | .error e => (currentData, .loggedError e)
  | .ok response =>
    match parseJson response with
    | .error e => (currentData, .loggedError e)
    | .ok extractedData => (extractedData, .logged response)

/-- Observable result of one run of
`WorkflowEngine.extract_values_from_queue`: the artifacts handed to
`extract_value_from_file` in order, the items drained without processing on
cancellation, the final accumulated snapshot, the argument of the final
`save_output` call (`none` if no output file is written), and the
`save_progress` snapshots in order. -/
structure ConsumerResult (A S : Type) where
  processed : List A
  drained : List (Option A)
  snapshot : S
  savedOutput : Option S
  progressSaves : List S

/-- The consumer loop of `extract_values_from_queue`.  The queue is the
sequence of values the blocking `get` will deliver (`none` is the `None`
completion sentinel put by the producer `extract_content`; FIFO order is
the enqueue order).  `cancel i` is the value of
`job_cancellation.get(job_id)` observed at the top of iteration `i`; on
cancellation the remaining queue is drained without processing and the
partial snapshot saved only when `file_count > 0`.  `count` is
`file_count`.  An empty queue without sentinel would block forever; it is
never reached here since the producer always enqueues the sentinel. -/
def consumerLoop {A S : Type} (step : S → A → S) (cancel : Nat → Bool) :
    List (Option A) → S → Nat → ConsumerResult A S
  | queue, acc, count =>
    if cancel count then
      { processed := [], drained := queue, snapshot := acc
        savedOutput := if count > 0 then some acc else none
        progressSaves := [] }
    else
      match queue with
      | [] =>
        { processed := [], drained := [], snapshot := acc
          savedOutput := none, progressSaves := [] }
      | none :: _ =>
        { processed := [], drained := [], snapshot := acc
          savedOutput := some acc, progressSaves := [] }
      | some a :: rest =>
        let acc1 := step acc a
        let r := consumerLoop step cancel rest acc1 (count + 1)
        { r with processed := a :: r.processed, progressSaves := acc1 :: r.progressSaves }

/-- `extract_values_from_queue` for a producer that enqueued `items` in
order followed by the completion sentinel. -/
def extractValuesFromQueue {A S : Type} (step : S → A → S) (cancel : Nat → Bool)
    (items : List A) (init : S) : ConsumerResult A S :=
  consumerLoop step cancel (items.map some ++ [none]) init 0

/-- Snapshots written by `save_progress` after each processed unit: the
strict prefix folds of the accumulation. -/
def foldSnapshots {A S : Type} (step : S → A → S) : S → List A → List S
  | _, [] => []
  | acc, a :: t => step acc a :: foldSnapshots step (step acc a) t

/-- The `(key, value)` pairs of an ordered multi-dict, flattened in
emission order (the order `urlencode(d, doseq=True)` walks them). -/
def pairsOf : List (Str × List Str) → List (Str × Str)
  | [] => []
  | (k, vs) :: rest => vs.map (fun v => (k, v)) ++ pairsOf rest

/-- The `quote_plus(k)=quote_plus(v)` chunk emitted by `urlencode` for one
pair. -/
def chunkOf (kv : Str × Str) : Str := quotePlus kv.1 ++ 61 :: quotePlus kv.2

/-! ## Theorems -/

theorem consumerLoop_no_cancel {A S : Type} (step : S → A → S) :
    ∀ (items : List A) (acc : S) (count : Nat),
    consumerLoop step (fun _ => false) (items.map some ++ [none]) acc count =
      ⟨items, [], items.foldl step acc, some (items.foldl step acc),
       foldSnapshots step acc items⟩ := by
  intro items
  induction items with
  | nil => intro acc count; simp [consumerLoop, foldSnapshots]
  | cons a t ih => intro acc count; simp [consumerLoop, foldSnapshots, ih]

/-- C7: with no cancellation, the consumer processes the artifacts in
exactly the producer's enqueue order, and the accumulated snapshot (and the
persisted output) is the strictly sequential left-to-right fold of the
extraction step over that sequence. -/
theorem c7_consumer_fifo_fold {A S : Type} (step : S → A → S) (init : S) (items : List A) :
    (extractValuesFromQueue step (fun _ => false) items init).processed = items ∧
    (extractValuesFromQueue step (fun _ => false) items init).snapshot = items.foldl step init ∧
    (extractValuesFromQueue step (fun _ => false) items init).savedOutput =
      some (items.foldl step init) ∧
    (extractValuesFromQueue step (fun _ => false) items init).progressSaves =
      foldSnapshots step init items := by
  unfold extractValuesFromQueue
  rw [consumerLoop_no_cancel]
  exact ⟨rfl, rfl, rfl, rfl⟩

theorem consumerLoop_cancel_at {A S : Type} (step : S → A → S) (cancel : Nat → Bool) :
    ∀ (k : Nat) (items : List A) (acc : S) (count : Nat),
    k ≤ items.length → 0 < count + k →
    (∀ i, i < k → cancel (count + i) = false) →
    cancel (count + k) = true →
    consumerLoop step cancel (items.map some ++ [none]) acc count =
      ⟨items.take k, (items.drop k).map some ++ [none], (items.take k).foldl step acc,
       some ((items.take k).foldl step acc), foldSnapshots step acc (items.take k)⟩ := by
  intro k
  induction k with
  | zero =>
    intro items acc count hk hpos hf ht
    have hcount : cancel count = true := by simpa using ht
    have hcpos : count > 0 := by omega
    rw [consumerLoop.eq_def]
    simp [hcount, hcpos, foldSnapshots]
  | succ k ih =>
    intro items acc count hk hpos hf ht
    cases items with
    | nil => simp at hk
    | cons a t =>
      have h0 : cancel count = false := by simpa using hf 0 (Nat.succ_pos k)
      rw [consumerLoop.eq_def]
      simp only [List.map_cons, List.cons_append, h0, Bool.false_eq_true, if_false]
      rw [ih t (step acc a) (count + 1) (by simpa using hk) (by omega)
        (fun i hi => by
          have := hf (i + 1) (by omega)
          simpa [Nat.add_assoc, Nat.add_comm 1 i] using this)
        (by simpa [Nat.add_assoc, Nat.add_comm 1 k] using ht)]
      simp [foldSnapshots]

/-- C8: if cancellation is observed after `k ≥ 1` units have been processed
and before unit `k + 1` starts, the consumer's processed sequence is exactly
the first `k` artifacts, the remaining queue (including the sentinel) is
drained without being processed, and the persisted snapshot is the fold of
units `1..k`. -/
theorem c8_cancellation_after_k_units {A S : Type} (step : S → A → S) (init : S)
    (items : List A) (cancel : Nat → Bool) (k : Nat)
    (h1 : 1 ≤ k) (h2 : k ≤ items.length)
    (h3 : ∀ i, i < k → cancel i = false) (h4 : cancel k = true) :
    (extractValuesFromQueue step cancel items init).processed = items.take k ∧
    (extractValuesFromQueue step cancel items init).drained =
      (items.drop k).map some ++ [none] ∧
    (extractValuesFromQueue step cancel items init).savedOutput =
      some ((items.take k).foldl step init) := by
  unfold extractValuesFromQueue
  rw [consumerLoop_cancel_at step cancel k items init 0 h2 (by omega)
    (fun i hi => by simpa using h3 i hi) (by simpa using h4)]
  exact ⟨rfl, rfl, rfl⟩

/-- Witness for `c8_cancellation_after_k_units` at a concrete run:
three artifacts, cancellation signalled once two are processed. -/
theorem c8_cancellation_after_k_units_witness :
    (extractValuesFromQueue (fun (s : List Nat) a => s ++ [a])
      (fun i => decide (2 ≤ i)) [10, 20, 30] []).processed = [10, 20] ∧
    (extractValuesFromQueue (fun (s : List Nat) a => s ++ [a])
      (fun i => decide (2 ≤ i)) [10, 20, 30] []).drained = [some 30, none] ∧
    (extractValuesFromQueue (fun (s : List Nat) a => s ++ [a])
      (fun i => decide (2 ≤ i)) [10, 20, 30] []).savedOutput = some [10, 20] := by
  have h := c8_cancellation_after_k_units (fun (s : List Nat) a => s ++ [a]) []
    [10, 20, 30] (fun i => decide (2 ≤ i)) 2 (by omega) (by simp)
    (fun i hi => by simp; omega) (by simp)
  simpa using h

/-- C10: if cancellation is observed before any unit has been processed
(`file_count = 0`), the consumer drains the whole queue without processing
anything and returns without writing the output snapshot file at all. -/
theorem c10_cancel_before_first_unit_no_output {A S : Type} (step : S → A → S)
    (cancel : Nat → Bool) (items : List A) (init : S) (h : cancel 0 = true) :
    extractValuesFromQueue step cancel items init =
      ⟨[], items.map some ++ [none], init, none, []⟩ := by
  unfold extractValuesFromQueue
  rw [consumerLoop.eq_def]
  simp [h]

/-- Witness for `c10_cancel_before_first_unit_no_output` at a concrete run. -/
theorem c10_cancel_before_first_unit_no_output_witness :
    extractValuesFromQueue (fun (s : List Nat) a => s ++ [a]) (fun _ => true)
      [10, 20] [] = ⟨[], [some 10, some 20, none], [], none, []⟩ := by
  simpa using
    c10_cancel_before_first_unit_no_output (fun (s : List Nat) a => s ++ [a])
      (fun _ => true) [10, 20] [] rfl

/-- C9: when the AI call (or the JSON parse of its response) inside
`extract_value_from_file` fails, the function catches the exception, logs
the error and returns the prior accumulated snapshot unchanged. -/
theorem c9_ai_error_preserves_snapshot {S : Type} (callAI : Str → Except Str Str)
    (parseJson : Str → Except Str S) (prompt : Str) (currentData : S) :
    (∀ e, callAI prompt = .error e →
      extractValueFromFile callAI parseJson prompt currentData =
        (currentData, .loggedError e)) ∧
    (∀ r e, callAI prompt = .ok r → parseJson r = .error e →
      extractValueFromFile callAI parseJson prompt currentData =
        (currentData, .loggedError e)) := by
  constructor
  · intro e he
    simp [extractValueFromFile, he]
  · intro r e hr he
    simp [extractValueFromFile, hr, he]

/-- Witness for `c9_ai_error_preserves_snapshot`: a failing AI call leaves
the snapshot `7` untouched. -/
theorem c9_ai_error_preserves_snapshot_witness :
    extractValueFromFile (fun _ => Except.error (bs ("boom")))
      (fun _ => Except.ok (0 : Nat)) [] 7 = (7, .loggedError (bs ("boom"))) :=
  (c9_ai_error_preserves_snapshot (fun _ => Except.error (bs ("boom")))
    (fun _ => Except.ok (0 : Nat)) [] 7).1 (bs ("boom")) rfl

theorem retryLoop_all_transient (fetch : Nat → FetchOutcome) (maxRetries : Nat)
    (htr : ∀ i, (fetch i).transient = true) :
    ∀ (remaining attempt : Nat), 1 ≤ remaining →
    (retryLoop fetch maxRetries attempt remaining).attempted =
      (List.range remaining).map (attempt + ·) ∧
    (retryLoop fetch maxRetries attempt remaining).sleeps =
      (List.range (remaining - 1)).map (fun k => 2 ^ (attempt + k + 1)) ∧
    ∃ res, (retryLoop fetch maxRetries attempt remaining).result = some res ∧
      res.extraction_successful = false ∧ res.attempts = maxRetries ∧
      ∃ m, (fetch (attempt + remaining - 1) = .timeoutErr m ∧
              res.error = some (.timeoutAfter maxRetries m)) ∨
           (fetch (attempt + remaining - 1) = .requestErr m ∧
              res.error = some (.requestFailedAfter maxRetries m)) := by
  intro remaining
  induction remaining with
  | zero => intro attempt h; omega
  | succ r ih =>
    intro attempt _
    have htr1 := htr attempt
    rcases r with _ | r1
    · rw [retryLoop]
      cases hf : fetch attempt with
      | success c => rw [hf] at htr1; simp [FetchOutcome.transient] at htr1
      | timeoutErr m =>
        refine ⟨by rw [List.range_succ]; simp, by simp, ?_⟩
        exact ⟨_, rfl, rfl, rfl, m, Or.inl ⟨by simpa using hf, rfl⟩⟩
      | requestErr m =>
        refine ⟨by rw [List.range_succ]; simp, by simp, ?_⟩
        exact ⟨_, rfl, rfl, rfl, m, Or.inr ⟨by simpa using hf, rfl⟩⟩
      | otherErr m => rw [hf] at htr1; simp [FetchOutcome.transient] at htr1
    · have hih := ih (attempt + 1) (by omega)
      have hrange : (List.range (r1 + 2)).map (attempt + ·) =
          attempt :: (List.range (r1 + 1)).map (attempt + 1 + ·) := by
        rw [List.range_succ_eq_map]
        simp only [List.map_cons, Nat.add_zero, List.map_map]
        refine congrArg _ (List.map_congr_left fun x _ => ?_)
        simp [Function.comp]
        omega
      have hsleeps : (List.range (r1 + 2 - 1)).map (fun k => 2 ^ (attempt + k + 1)) =
          2 ^ (attempt + 1) :: (List.range (r1 + 1 - 1)).map
            (fun k => 2 ^ (attempt + 1 + k + 1)) := by
        show (List.range (r1 + 1)).map (fun k => 2 ^ (attempt + k + 1)) = _
        rw [List.range_succ_eq_map]
        simp only [List.map_cons, Nat.add_zero, List.map_map, Nat.add_sub_cancel]
        refine congrArg _ (List.map_congr_left fun x _ => ?_)
        simp [Function.comp]
        ring_nf
      have harith : attempt + 1 + (r1 + 1) - 1 = attempt + (r1 + 2) - 1 := by omega
      rw [retryLoop]
      cases hf : fetch attempt with
      | success c => rw [hf] at htr1; simp [FetchOutcome.transient] at htr1
      | timeoutErr m =>
        simp only [Nat.succ_ne_zero, if_false]
        rw [harith] at hih
        exact ⟨by rw [hrange]; simpa using hih.1,
               by rw [hsleeps]; simpa using hih.2.1, hih.2.2⟩
      | requestErr m =>
        simp only [Nat.succ_ne_zero, if_false]
        rw [harith] at hih
        exact ⟨by rw [hrange]; simpa using hih.1,
               by rw [hsleeps]; simpa using hih.2.1, hih.2.2⟩
      | otherErr m => rw [hf] at htr1; simp [FetchOutcome.transient] at htr1

/-- C3: when every attempt raises a timeout or a transient request error,
`extract_clean_content` performs exactly `max_retries` attempts, sleeps
`2 ^ k` seconds between attempt `k` and attempt `k + 1` (attempts numbered
from 1, i.e. the backoff sequence 2, 4, 8, ...), and returns — rather than
raises — a failure result whose `extraction_successful` is `False`, whose
`error` field carries the final error, and whose `attempts` field equals
`max_retries`. -/
theorem c3_transient_failure_exhausts_retries (fetch : Nat → FetchOutcome)
    (maxRetries : Nat) (h1 : 1 ≤ maxRetries)
    (htr : ∀ i, (fetch i).transient = true) :
    (extractCleanContent fetch maxRetries).attempted = List.range maxRetries ∧
    (extractCleanContent fetch maxRetries).sleeps =
      (List.range (maxRetries - 1)).map (fun k => 2 ^ (k + 1)) ∧
    ∃ res, (extractCleanContent fetch maxRetries).result = some res ∧
      res.extraction_successful = false ∧ res.attempts = maxRetries ∧
      ∃ m, (fetch (maxRetries - 1) = .timeoutErr m ∧
              res.error = some (.timeoutAfter maxRetries m)) ∨
           (fetch (maxRetries - 1) = .requestErr m ∧
              res.error = some (.requestFailedAfter maxRetries m)) := by
  have h := retryLoop_all_transient fetch maxRetries htr maxRetries 0 h1
  unfold extractCleanContent
  refine ⟨?_, ?_, by simpa using h.2.2⟩
  · rw [h.1]
    simp
  · rw [h.2.1]
    exact List.map_congr_left fun x _ => by rw [Nat.zero_add]

/-- Witness for `c3_transient_failure_exhausts_retries`: five attempts that
all time out give attempts `0..4`, sleeps `[2, 4, 8, 16]` and a failure
result with `attempts = 5`. -/
theorem c3_transient_failure_exhausts_retries_witness :
    (extractCleanContent (fun _ => .timeoutErr (bs ("t"))) 5).attempted =
      List.range 5 ∧
    (extractCleanContent (fun _ => .timeoutErr (bs ("t"))) 5).sleeps =
      (List.range 4).map (fun k => 2 ^ (k + 1)) ∧
    ∃ res, (extractCleanContent (fun _ => .timeoutErr (bs ("t"))) 5).result = some res ∧
      res.extraction_successful = false ∧ res.attempts = 5 ∧
      ∃ m, ((fun _ => FetchOutcome.timeoutErr (bs ("t"))) (5 - 1) = .timeoutErr m ∧
              res.error = some (.timeoutAfter 5 m)) ∨
           ((fun _ => FetchOutcome.timeoutErr (bs ("t"))) (5 - 1) = .requestErr m ∧
              res.error = some (.requestFailedAfter 5 m)) := by
  have h := c3_transient_failure_exhausts_retries (fun _ => .timeoutErr (bs ("t"))) 5
    (by omega) (fun i => rfl)
  simpa using h

theorem segment_bonus_if_eq_match (n : Nat) :
    (if n = 1 then (20 : Int) else if n = 2 then 10 else if n = 3 then 0
     else if n = 4 then (-10) else (-20)) = specSegmentBonus n := by
  rcases n with _ | _ | _ | _ | _ | m <;> simp [specSegmentBonus]

/-- C4: `calculate_priority` computes exactly the §4.5 spec formula — root
path scores a fixed 100, otherwise the clamp to `[0, 100]` of base 50 plus
the context bonus, plus the path-segment-count bonus, minus 5 per crawl
depth, minus 5 when the URL carries a query string — and its result always
lies in `[0, 100]`. -/
theorem c4_priority_matches_spec_formula (url context : Str) (depth : Nat) :
    calculatePriority url context depth = specPriority url context depth ∧
    0 ≤ calculatePriority url context depth ∧
    calculatePriority url context depth ≤ 100 ∧
    (((urlparseModel url).path = bs ("/") ∨ (urlparseModel url).path = []) →
      calculatePriority url context depth = 100) := by
  have heq : calculatePriority url context depth = specPriority url context depth := by
    unfold calculatePriority specPriority specContextBonus
    by_cases hroot : (urlparseModel url).path = bs ("/") ∨ (urlparseModel url).path = []
    · simp [hroot]
    · simp only [hroot, if_false]
      rw [segment_bonus_if_eq_match]
      by_cases hq : 63 ∈ url <;> simp [hq] <;> ring_nf
  refine ⟨heq, ?_, ?_, ?_⟩
  · unfold calculatePriority
    by_cases hroot : (urlparseModel url).path = bs ("/") ∨ (urlparseModel url).path = []
    · simp [hroot]
    · simp only [hroot, if_false]
      omega
  · unfold calculatePriority
    by_cases hroot : (urlparseModel url).path = bs ("/") ∨ (urlparseModel url).path = []
    · simp [hroot]
    · simp only [hroot, if_false]
      omega
  · intro hroot
    unfold calculatePriority
    simp [hroot]

/-- Witness for `c4_priority_matches_spec_formula`: the root URL scores 100
at any context and depth. -/
theorem c4_priority_matches_spec_formula_witness :
    calculatePriority (bs ("https://e.com/")) (bs ("body")) 2 = 100 :=
  (c4_priority_matches_spec_formula (bs ("https://e.com/")) (bs ("body")) 2).2.2.2
    (by decide)

theorem lookupD_append_of_some {α : Type} {key : Str} {v : α} :
    ∀ {xs : List (Str × α)} (ys : List (Str × α)),
    lookupD key xs = some v → lookupD key (xs ++ ys) = some v := by
  intro xs
  induction xs with
  | nil => intro ys h; simp [lookupD] at h
  | cons kv t ih =>
    intro ys h
    rw [lookupD] at h
    rw [List.cons_append, lookupD]
    by_cases hk : kv.1 = key
    · simpa [hk] using h
    · rw [if_neg hk] at h ⊢
      exact ih ys h

theorem lookupD_append_of_none {α : Type} {key : Str} :
    ∀ {xs : List (Str × α)} (ys : List (Str × α)),
    lookupD key xs = none → lookupD key (xs ++ ys) = lookupD key ys := by
  intro xs
  induction xs with
  | nil => intro ys _; rfl
  | cons kv t ih =>
    intro ys h
    rw [lookupD] at h
    rw [List.cons_append, lookupD]
    by_cases hk : kv.1 = key
    · simp [hk] at h
    · rw [if_neg hk] at h ⊢
      exact ih ys h

theorem lookupD_ne_none_append {α : Type} {key : Str} {xs : List (Str × α)}
    (ys : List (Str × α)) (h : lookupD key xs ≠ none) :
    lookupD key (xs ++ ys) ≠ none := by
  rcases hx : lookupD key xs with _ | v
  · exact absurd hx h
  · rw [lookupD_append_of_some ys hx]
    simp

theorem seedStep_queue_fields (st : CrawlerState) (u : Str) :
    (seedStep st u).toCrawl = st.toCrawl ∧ (seedStep st u).crawled = st.crawled ∧
    (seedStep st u).extractedLog = st.extractedLog := by
  unfold seedStep
  split <;> exact ⟨rfl, rfl, rfl⟩

theorem foldl_seedStep_queue_fields :
    ∀ (locs : List Str) (st : CrawlerState),
    (locs.foldl seedStep st).toCrawl = st.toCrawl ∧
    (locs.foldl seedStep st).crawled = st.crawled ∧
    (locs.foldl seedStep st).extractedLog = st.extractedLog := by
  intro locs
  induction locs with
  | nil => intro st; exact ⟨rfl, rfl, rfl⟩
  | cons l t ih =>
    intro st
    have h1 := seedStep_queue_fields st l
    have h2 := ih (seedStep st l)
    exact ⟨h2.1.trans h1.1, h2.2.1.trans h1.2.1, h2.2.2.trans h1.2.2⟩

theorem foldl_seedStep_lookup_some :
    ∀ (locs : List Str) (st : CrawlerState) (u : Str) (v : Int) (d : Nat),
    lookupD u st.discovered = some v → lookupD u st.urlDepths = some d →
    lookupD u (locs.foldl seedStep st).discovered = some v ∧
    lookupD u (locs.foldl seedStep st).urlDepths = some d := by
  intro locs
  induction locs with
  | nil => intro st u v d h1 h2; exact ⟨h1, h2⟩
  | cons l t ih =>
    intro st u v d h1 h2
    refine ih (seedStep st l) u v d ?_ ?_ <;> unfold seedStep <;> split
    · exact lookupD_append_of_some _ h1
    · exact h1
    · exact lookupD_append_of_some _ h2
    · exact h2

theorem foldl_seedStep_adds :
    ∀ (locs : List Str) (st : CrawlerState) (u : Str), u ∈ locs →
    lookupD u st.discovered = none → lookupD u st.urlDepths = none →
    lookupD u (locs.foldl seedStep st).discovered =
      some (calculatePriority u (bs ("sitemap")) 1) ∧
    lookupD u (locs.foldl seedStep st).urlDepths = some 1 := by
  intro locs
  induction locs with
  | nil => intro st u hu; simp at hu
  | cons l t ih =>
    intro st u hu h1 h2
    by_cases hlu : l = u
    · subst hlu
      have hd : lookupD l (seedStep st l).discovered =
          some (calculatePriority l (bs ("sitemap")) 1) := by
        unfold seedStep
        rw [if_pos h1]
        show lookupD l (st.discovered ++ _) = _
        rw [lookupD_append_of_none _ h1]
        simp [lookupD]
      have hdep : lookupD l (seedStep st l).urlDepths = some 1 := by
        unfold seedStep
        rw [if_pos h1]
        show lookupD l (st.urlDepths ++ _) = _
        rw [lookupD_append_of_none _ h2]
        simp [lookupD]
      exact foldl_seedStep_lookup_some t (seedStep st l) l _ _ hd hdep
    · have hu' : u ∈ t := by
        rcases List.mem_cons.mp hu with h | h
        · exact absurd h.symm hlu
        · exact h
      refine ih (seedStep st l) u hu' ?_ ?_ <;> unfold seedStep <;> split
      · show lookupD u (st.discovered ++ _) = none
        rw [lookupD_append_of_none _ h1]
        simp [lookupD, hlu]
      · exact h1
      · show lookupD u (st.urlDepths ++ _) = none
        rw [lookupD_append_of_none _ h2]
        simp [lookupD, hlu]
      · exact h2

theorem processLinks_same_crawled (mU mD cd : Nat) :
    ∀ (L : List (Str × Str)) (st : CrawlerState),
    (processLinks mU mD cd L st).crawled = st.crawled ∧
    (processLinks mU mD cd L st).extractedLog = st.extractedLog := by
  intro L
  induction L with
  | nil => intro st; exact ⟨rfl, rfl⟩
  | cons p rest ih =>
    intro st
    obtain ⟨url, context⟩ := p
    rw [processLinks]
    split
    · exact ⟨rfl, rfl⟩
    · split
      · split
        · exact ih _
        · exact ih _
      · exact ih st

theorem processLinks_budget (mU mD cd : Nat) :
    ∀ (L : List (Str × Str)) (st : CrawlerState),
    st.discovered.length ≤ mU → (processLinks mU mD cd L st).discovered.length ≤ mU := by
  intro L
  induction L with
  | nil => intro st h; exact h
  | cons p rest ih =>
    intro st h
    obtain ⟨url, context⟩ := p
    rw [processLinks]
    split
    · exact h
    · rename_i hlt
      split
      · split <;>
        · refine ih _ ?_
          simp only [List.length_append, List.length_cons, List.length_nil]
          omega
      · exact ih st h

theorem processLinks_frontier (mU mD cd : Nat) :
    ∀ (L : List (Str × Str)) (st : CrawlerState),
    ∃ new, (processLinks mU mD cd L st).toCrawl = st.toCrawl ++ new ∧
      ∀ e ∈ new, e.2 = cd + 1 ∧ cd + 1 ≤ mD := by
  intro L
  induction L with
  | nil => intro st; exact ⟨[], by simp [processLinks], by simp⟩
  | cons p rest ih =>
    intro st
    obtain ⟨url, context⟩ := p
    rw [processLinks]
    split
    · exact ⟨[], by simp, by simp⟩
    · split
      · split
        · rename_i hd
          rcases ih { st with
              discovered := st.discovered ++ [(url, calculatePriority url context (cd + 1))]
              urlDepths := st.urlDepths ++ [(url, cd + 1)]
              toCrawl := st.toCrawl ++ [(url, cd + 1)] } with ⟨new, hq, hp⟩
          refine ⟨(url, cd + 1) :: new, ?_, ?_⟩
          · rw [hq]
            show (st.toCrawl ++ [(url, cd + 1)]) ++ new = _
            rw [List.append_assoc]
            rfl
          · intro e he
            rcases List.mem_cons.mp he with h | h
            · simp [h, hd]
            · exact hp e h
        · exact ih _
      · exact ih st

theorem processLinks_not_touched (mU mD cd : Nat) (s : Str) :
    ∀ (L : List (Str × Str)) (st : CrawlerState),
    lookupD s st.discovered ≠ none → (∀ d, (s, d) ∉ st.toCrawl) →
    lookupD s (processLinks mU mD cd L st).discovered ≠ none ∧
    (∀ d, (s, d) ∉ (processLinks mU mD cd L st).toCrawl) := by
  intro L
  induction L with
  | nil => intro st h1 h2; exact ⟨h1, h2⟩
  | cons p rest ih =>
    intro st h1 h2
    obtain ⟨url, context⟩ := p
    rw [processLinks]
    split
    · exact ⟨h1, h2⟩
    · split
      · rename_i hnew
        have hps : url ≠ s := by
          intro he
          rw [he] at hnew
          exact h1 hnew
        split
        · refine ih _ ?_ ?_
          · exact lookupD_ne_none_append _ h1
          · intro d hd
            rcases List.mem_append.mp hd with h | h
            · exact h2 d h
            · simp at h
              exact hps h.1.symm
        · refine ih _ ?_ h2
          exact lookupD_ne_none_append _ h1
      · exact ih st h1 h2

theorem crawlLoop_not_touched (links : Str → List (Str × Str)) (mU mD : Nat) (s : Str) :
    ∀ (fuel : Nat) (st : CrawlerState),
    lookupD s st.discovered ≠ none → (∀ d, (s, d) ∉ st.toCrawl) →
    s ∉ st.extractedLog →
    s ∉ (crawlLoop links mU mD fuel st).extractedLog := by
  intro fuel
  induction fuel with
  | zero => intro st _ _ h3; simpa [crawlLoop] using h3
  | succ f ih =>
    intro st h1 h2 h3
    obtain ⟨disc, depths, queue, crw, log⟩ := st
    rcases queue with _ | ⟨⟨cur, cd⟩, restQ⟩
    · simpa [crawlLoop] using h3
    · rw [crawlLoop]
      simp only at h1 h2 h3 ⊢
      have hcs : cur ≠ s := fun he =>
        h2 cd (by rw [he]; exact List.mem_cons_self _ _)
      have h2r : ∀ d, (s, d) ∉ restQ := fun d hd =>
        h2 d (List.mem_cons_of_mem _ hd)
      split
      · split
        · exact ih _ h1 h2r h3
        · have hrec := processLinks_not_touched mU mD cd s (links cur)
            ⟨disc, depths, restQ, cur :: crw, log ++ [cur]⟩ h1 h2r
          have hlog := (processLinks_same_crawled mU mD cd (links cur)
            ⟨disc, depths, restQ, cur :: crw, log ++ [cur]⟩).2
          refine ih _ hrec.1 hrec.2 ?_
          rw [hlog]
          intro hmem
          rcases List.mem_append.mp hmem with h | h
          · exact h3 h
          · simp at h
            exact hcs h.symm
      · exact h3

theorem crawlLoop_budget (links : Str → List (Str × Str)) (mU mD : Nat) :
    ∀ (fuel : Nat) (st : CrawlerState),
    st.discovered.length ≤ mU →
    (crawlLoop links mU mD fuel st).discovered.length ≤ mU := by
  intro fuel
  induction fuel with
  | zero => intro st h; simpa [crawlLoop] using h
  | succ f ih =>
    intro st h
    obtain ⟨disc, depths, queue, crw, log⟩ := st
    rcases queue with _ | ⟨⟨cur, cd⟩, restQ⟩
    · simpa [crawlLoop] using h
    · rw [crawlLoop]
      simp only at h ⊢
      split
      · split
        · exact ih _ h
        · exact ih _ (processLinks_budget mU mD cd (links cur) _ h)
      · exact h

theorem crawlLoop_frontier_le (links : Str → List (Str × Str)) (mU mD : Nat) :
    ∀ (fuel : Nat) (st : CrawlerState),
    (∀ e ∈ st.toCrawl, e.2 ≤ mD) →
    ∀ e ∈ (crawlLoop links mU mD fuel st).toCrawl, e.2 ≤ mD := by
  intro fuel
  induction fuel with
  | zero => intro st h; simpa [crawlLoop] using h
  | succ f ih =>
    intro st h
    obtain ⟨disc, depths, queue, crw, log⟩ := st
    rcases queue with _ | ⟨⟨cur, cd⟩, restQ⟩
    · simp only [crawlLoop]
      exact h
    · rw [crawlLoop]
      simp only at h ⊢
      have hrest : ∀ e ∈ restQ, e.2 ≤ mD := fun e he =>
        h e (List.mem_cons_of_mem _ he)
      split
      · split
        · exact ih _ hrest
        · refine ih _ ?_
          rcases processLinks_frontier mU mD cd (links cur)
            ⟨disc, depths, restQ, cur :: crw, log ++ [cur]⟩ with ⟨new, hq, hp⟩
          rw [hq]
          intro e he
          rcases List.mem_append.mp he with h' | h'
          · exact hrest e h'
          · rw [(hp e h').1]
            exact (hp e h').2
      · exact h

theorem crawlLoop_extract_once (links : Str → List (Str × Str)) (mU mD : Nat) :
    ∀ (fuel : Nat) (st : CrawlerState),
    st.extractedLog.Nodup → (∀ u ∈ st.extractedLog, u ∈ st.crawled) →
    (crawlLoop links mU mD fuel st).extractedLog.Nodup := by
  intro fuel
  induction fuel with
  | zero => intro st h _; simpa [crawlLoop] using h
  | succ f ih =>
    intro st h1 h2
    obtain ⟨disc, depths, queue, crw, log⟩ := st
    rcases queue with _ | ⟨⟨cur, cd⟩, restQ⟩
    · simpa [crawlLoop] using h1
    · rw [crawlLoop]
      simp only at h1 h2 ⊢
      split
      · split
        · exact ih _ h1 h2
        · rename_i hnotc
          have hcur : cur ∉ crw := fun hc => hnotc (Or.inl hc)
          have hcurlog : cur ∉ log := fun hl => hcur (h2 cur hl)
          have hfields := processLinks_same_crawled mU mD cd (links cur)
            ⟨disc, depths, restQ, cur :: crw, log ++ [cur]⟩
          refine ih _ ?_ ?_
          · rw [hfields.2]
            simp [List.nodup_append, h1, hcurlog]
          · rw [hfields.2, hfields.1]
            intro u hu
            rcases List.mem_append.mp hu with h' | h'
            · exact List.mem_cons_of_mem _ (h2 u h')
            · simp at h'
              rw [h']
              exact List.mem_cons_self _ _
      · exact h1

theorem seedSitemap_queue_fields (baseUrl : Str) (locs : List Str) :
    (seedSitemap baseUrl locs).toCrawl = [(baseUrl, 0)] ∧
    (seedSitemap baseUrl locs).crawled = [] ∧
    (seedSitemap baseUrl locs).extractedLog = [] := by
  unfold seedSitemap
  exact foldl_seedStep_queue_fields locs _

/-- C1 (amended): sitemap seeding is not budget-checked, so the discovered
set can exceed the budget right after seeding; but whenever the discovered
set is within the budget at the start of the breadth-first walk (in
particular whenever the sitemap contributed few enough seeds, e.g. none),
every BFS iteration keeps it within the budget. -/
theorem c1_budget_respected_during_bfs (links : Str → List (Str × Str))
    (baseUrl : Str) (sitemapLocs : List Str) (mU mD fuel : Nat)
    (h : (seedSitemap baseUrl (parseSitemap sitemapLocs)).discovered.length ≤ mU) :
    (discoverImportantPages links baseUrl sitemapLocs mU mD fuel).discovered.length ≤ mU :=
  crawlLoop_budget links mU mD fuel _ h

/-- Witness for `c1_budget_respected_during_bfs`: base URL plus two sitemap
seeds within a budget of 10 stay within the budget after five BFS steps. -/
theorem c1_budget_respected_during_bfs_witness :
    (discoverImportantPages
      (fun u => if u = bs ("https://e.com") then [(bs ("https://e.com/c"), bs ("homepage"))] else [])
      (bs ("https://e.com")) [bs ("https://e.com/a"), bs ("https://e.com/b")]
      10 3 5).discovered.length ≤ 10 :=
  c1_budget_respected_during_bfs
    (fun u => if u = bs ("https://e.com") then [(bs ("https://e.com/c"), bs ("homepage"))] else [])
    (bs ("https://e.com")) [bs ("https://e.com/a"), bs ("https://e.com/b")]
    10 3 5 (by decide)

/-- Counterexample to C1 as stated: with a configured budget of 1 and a
successfully parsed sitemap contributing two fresh URLs, the discovered set
holds 3 entries right after sitemap seeding (and for the rest of the run) —
the seeding loop performs no budget check. -/
theorem c1_budget_exceeded_after_seeding :
    ¬ ((discoverImportantPages (fun _ => []) (bs ("https://e.com"))
        [bs ("https://e.com/a"), bs ("https://e.com/b")] 1 3 5).discovered.length ≤ 1) := by
  decide

/-- C2 (amended): the frontier is seeded with the base URL at depth 0
*only*; a successfully parsed sitemap's seeds are recorded in the
discovered map — scored with context `'sitemap'` and registered at depth
1 — but they are never placed on the frontier, and consequently a
sitemap-derived URL distinct from the base URL is never dequeued and never
has its links extracted during the breadth-first walk. -/
theorem c2_frontier_initial_state (links : Str → List (Str × Str))
    (baseUrl : Str) (sitemapLocs : List Str) (mU mD fuel : Nat) :
    (seedSitemap baseUrl (parseSitemap sitemapLocs)).toCrawl = [(baseUrl, 0)] ∧
    (∀ u, u ∈ parseSitemap sitemapLocs → u ≠ baseUrl →
      lookupD u (seedSitemap baseUrl (parseSitemap sitemapLocs)).discovered =
        some (calculatePriority u (bs ("sitemap")) 1) ∧
      lookupD u (seedSitemap baseUrl (parseSitemap sitemapLocs)).urlDepths = some 1) ∧
    (∀ u, u ∈ parseSitemap sitemapLocs → u ≠ baseUrl →
      u ∉ (discoverImportantPages links baseUrl sitemapLocs mU mD fuel).extractedLog) := by
  have hq := seedSitemap_queue_fields baseUrl (parseSitemap sitemapLocs)
  have hadds : ∀ u, u ∈ parseSitemap sitemapLocs → u ≠ baseUrl →
      lookupD u (seedSitemap baseUrl (parseSitemap sitemapLocs)).discovered =
        some (calculatePriority u (bs ("sitemap")) 1) ∧
      lookupD u (seedSitemap baseUrl (parseSitemap sitemapLocs)).urlDepths = some 1 := by
    intro u hu hub
    exact foldl_seedStep_adds (parseSitemap sitemapLocs) _ u hu
      (by simp [lookupD, Ne.symm hub]) (by simp [lookupD, Ne.symm hub])
  refine ⟨hq.1, hadds, ?_⟩
  intro u hu hub
  refine crawlLoop_not_touched links mU mD u fuel _ ?_ ?_ ?_
  · rw [(hadds u hu hub).1]
    simp
  · intro d hd
    rw [hq.1] at hd
    simp at hd
    exact hub hd.1
  · rw [hq.2.2]
    exact List.not_mem_nil u

/-- Witness for `c2_frontier_initial_state` at a concrete crawl. -/
theorem c2_frontier_initial_state_witness :
    (seedSitemap (bs ("https://e.com")) (parseSitemap [bs ("https://e.com/about")])).toCrawl =
      [(bs ("https://e.com"), 0)] ∧
    lookupD (bs ("https://e.com/about"))
      (seedSitemap (bs ("https://e.com")) (parseSitemap [bs ("https://e.com/about")])).discovered =
      some (calculatePriority (bs ("https://e.com/about")) (bs ("sitemap")) 1) ∧
    bs ("https://e.com/about") ∉
      (discoverImportantPages (fun _ => []) (bs ("https://e.com"))
        [bs ("https://e.com/about")] 10 3 5).extractedLog := by
  have h := c2_frontier_initial_state (fun _ => []) (bs ("https://e.com"))
    [bs ("https://e.com/about")] 10 3 5
  refine ⟨h.1, ?_, ?_⟩
  · exact (h.2.1 (bs ("https://e.com/about")) (by decide) (by decide)).1
  · exact h.2.2 (bs ("https://e.com/about")) (by decide) (by decide)

/-- Counterexample to C2 as stated: after a successful sitemap parse the
sitemap-derived seed is in the discovered set but the frontier holds only
the base URL — the seed is not enqueued at depth 1 (nor at any depth). -/
theorem c2_sitemap_seeds_not_on_frontier :
    (∀ d, (bs ("https://e.com/about"), d) ∉
      (seedSitemap (bs ("https://e.com"))
        (parseSitemap [bs ("https://e.com/about")])).toCrawl) ∧
    lookupD (bs ("https://e.com/about"))
      (seedSitemap (bs ("https://e.com"))
        (parseSitemap [bs ("https://e.com/about")])).discovered ≠ none := by
  constructor
  · intro d hd
    have hq := seedSitemap_queue_fields (bs ("https://e.com"))
      (parseSitemap [bs ("https://e.com/about")])
    rw [hq.1] at hd
    simp at hd
    exact absurd hd.1 (by decide)
  · decide

/-- C6: every frontier entry appended by the link loop has depth exactly
its parent's depth + 1 and is only enqueued when that depth is within
`max_depth`; every entry ever on the frontier respects the depth bound; and
no URL is link-extracted twice (the extraction log of the walk has no
duplicates, because a URL enters `crawled` when first dequeued and crawled
URLs are discarded on dequeue). -/
theorem c6_bfs_depth_and_visited_invariants (links : Str → List (Str × Str))
    (baseUrl : Str) (sitemapLocs : List Str) (mU mD fuel : Nat) :
    (∀ cd L st, ∃ new, (processLinks mU mD cd L st).toCrawl = st.toCrawl ++ new ∧
        ∀ e ∈ new, e.2 = cd + 1 ∧ cd + 1 ≤ mD) ∧
    (∀ e ∈ (discoverImportantPages links baseUrl sitemapLocs mU mD fuel).toCrawl,
      e.2 ≤ mD) ∧
    (discoverImportantPages links baseUrl sitemapLocs mU mD fuel).extractedLog.Nodup := by
  have hq := seedSitemap_queue_fields baseUrl (parseSitemap sitemapLocs)
  refine ⟨fun cd L st => processLinks_frontier mU mD cd L st, ?_, ?_⟩
  · refine crawlLoop_frontier_le links mU mD fuel _ ?_
    rw [hq.1]
    intro e he
    simp at he
    simp [he]
  · refine crawlLoop_extract_once links mU mD fuel _ ?_ ?_
    · rw [hq.2.2]
      exact List.nodup_nil
    · rw [hq.2.2]
      intro u hu
      simp at hu

/-- Witness for `c6_bfs_depth_and_visited_invariants` at a concrete crawl
whose frontier still holds an entry of depth 1. -/
theorem c6_bfs_depth_and_visited_invariants_witness :
    (1 : Nat) ≤ 3 ∧
    (discoverImportantPages
      (fun u => if u = bs ("https://e.com") then [(bs ("https://e.com/c"), bs ("homepage"))] else [])
      (bs ("https://e.com")) [] 10 3 1).extractedLog.Nodup := by
  have h := c6_bfs_depth_and_visited_invariants
    (fun u => if u = bs ("https://e.com") then [(bs ("https://e.com/c"), bs ("homepage"))] else [])
    (bs ("https://e.com")) [] 10 3 1
  refine ⟨?_, h.2.2⟩
  exact h.2.1 (bs ("https://e.com/c"), 1) (by decide)

/-- Counterexample to C5 as stated: `clean_url` is not idempotent.  For the
absolute URL `http://h/a/b;x/`, the first pass keeps the path-parameter-free
path `/a/b;x/` (the `;` lies before the last `/`) and strips the trailing
slash, producing `http://h/a/b;x`; re-parsing that string now finds `;x` in
its last path segment, so `urlparse` splits it off as path parameters and
the second pass returns `http://h/a/b`. -/
theorem c5_clean_url_not_idempotent :
    cleanUrl (cleanUrl (bs ("http://h/a/b;x/"))) ≠ cleanUrl (bs ("http://h/a/b;x/")) := by
  decide

theorem splitFirst_append {c : Nat} :
    ∀ {l : Str} (r : Str), c ∉ l → splitFirst c (l ++ c :: r) = some (l, r) := by
  intro l
  induction l with
  | nil => intro r _; simp [splitFirst]
  | cons b t ih =>
    intro r hc
    have hbc : b ≠ c := fun h => hc (h ▸ List.mem_cons_self _ _)
    rw [List.cons_append, splitFirst, if_neg hbc, ih r (fun h => hc (List.mem_cons_of_mem _ h))]

theorem splitFirst_of_not_mem {c : Nat} : ∀ {s : Str}, c ∉ s → splitFirst c s = none := by
  intro s
  induction s with
  | nil => intro _; rfl
  | cons b t ih =>
    intro hc
    have hbc : b ≠ c := fun h => hc (h ▸ List.mem_cons_self _ _)
    rw [splitFirst, if_neg hbc, ih (fun h => hc (List.mem_cons_of_mem _ h))]

theorem splitFirst_none_not_mem {c : Nat} :
    ∀ {s : Str}, splitFirst c s = none → c ∉ s := by
  intro s
  induction s with
  | nil => intro _; simp
  | cons b t ih =>
    intro h
    rw [splitFirst] at h
    by_cases hbc : b = c
    · rw [if_pos hbc] at h; exact absurd h (by simp)
    · rw [if_neg hbc] at h
      rcases hsp : splitFirst c t with _ | p
      · intro hm
        rcases List.mem_cons.mp hm with h' | h'
        · exact hbc h'.symm
        · exact ih hsp h'
      · rw [hsp] at h; exact absurd h (by simp)

theorem splitFirst_some_spec {c : Nat} :
    ∀ {s l r : Str}, splitFirst c s = some (l, r) → s = l ++ c :: r ∧ c ∉ l := by
  intro s
  induction s with
  | nil => intro l r h; simp [splitFirst] at h
  | cons b t ih =>
    intro l r h
    rw [splitFirst] at h
    by_cases hbc : b = c
    · rw [if_pos hbc] at h
      simp at h
      subst hbc
      obtain ⟨rfl, rfl⟩ := h
      exact ⟨rfl, by simp⟩
    · rw [if_neg hbc] at h
      rcases hsp : splitFirst c t with _ | ⟨l2, r2⟩
      · rw [hsp] at h; exact absurd h (by simp)
      · rw [hsp] at h
        simp at h
        rcases ih hsp with ⟨ht, hcl⟩
        obtain ⟨rfl, rfl⟩ := h
        refine ⟨by rw [List.cons_append, ht], ?_⟩
        intro hm
        rcases List.mem_cons.mp hm with h' | h'
        · exact hbc h'.symm
        · exact hcl h'

theorem takeUntilAny_append {stops : List Nat} :
    ∀ {pre : Str} (rest : Str), (∀ b ∈ pre, b ∉ stops) →
    (rest = [] ∨ rest.headD 0 ∈ stops) →
    takeUntilAny stops (pre ++ rest) = (pre, rest) := by
  intro pre
  induction pre with
  | nil =>
    intro rest _ hrest
    rcases hrest with h | h
    · subst h; rfl
    · rcases rest with _ | ⟨b, t⟩
      · rfl
      · simp only [List.headD_cons] at h
        rw [List.nil_append, takeUntilAny, if_pos h]
  | cons b t ih =>
    intro rest hpre hrest
    rw [List.cons_append, takeUntilAny,
      if_neg (hpre b (List.mem_cons_self _ _)),
      ih rest (fun x hx => hpre x (List.mem_cons_of_mem _ hx)) hrest]

theorem takeUntilAny_spec {stops : List Nat} :
    ∀ {s p r : Str}, takeUntilAny stops s = (p, r) →
    s = p ++ r ∧ (∀ b ∈ p, b ∉ stops) ∧ (r = [] ∨ r.headD 0 ∈ stops) := by
  intro s
  induction s with
  | nil =>
    intro p r h
    rw [takeUntilAny] at h
    simp at h
    obtain ⟨rfl, rfl⟩ := h
    exact ⟨rfl, by simp, Or.inl rfl⟩
  | cons b t ih =>
    intro p r h
    rw [takeUntilAny] at h
    by_cases hb : b ∈ stops
    · rw [if_pos hb] at h
      simp at h
      obtain ⟨rfl, rfl⟩ := h
      exact ⟨rfl, by simp, Or.inr (by simpa using hb)⟩
    · rw [if_neg hb] at h
      simp at h
      rcases hta : takeUntilAny stops t with ⟨p2, r2⟩
      rw [hta] at h
      simp at h
      rcases ih hta with ⟨ht, hp2, hr2⟩
      obtain ⟨rfl, rfl⟩ := h
      refine ⟨by rw [List.cons_append, ht], ?_, hr2⟩
      intro x hx
      rcases List.mem_cons.mp hx with h' | h'
      · rw [h']; exact hb
      · exact hp2 x h'

theorem hexUpper_isHex {x : Nat} (hx : x < 16) : isHexB (hexUpper x) = true := by
  unfold hexUpper isHexB isDigitB
  split_ifs <;> simp <;> omega

theorem hexVal_hexUpper {x : Nat} (hx : x < 16) : hexVal (hexUpper x) = x := by
  unfold hexUpper hexVal
  split_ifs <;> omega

theorem hexUpper_notin (x : Nat) :
    hexUpper x ∉ ([47, 63, 35, 38, 61, 43, 37] : List Nat) := by
  unfold hexUpper
  split_ifs <;> simp <;> omega

theorem mem_quoteByte_notin {b y : Nat} (hy : y ∈ quoteByte b) :
    y ∉ ([47, 63, 35, 38, 61] : List Nat) := by
  unfold quoteByte at hy
  split_ifs at hy with hs h32
  · simp at hy
    subst hy
    intro hmem
    fin_cases hmem <;> exact absurd hs (by decide)
  · simp at hy
    subst hy
    decide
  · simp at hy
    rcases hy with rfl | rfl | rfl
    · decide
    · intro hmem
      apply hexUpper_notin (b / 16)
      simp only [List.mem_cons, List.not_mem_nil, or_false] at hmem ⊢
      tauto
    · intro hmem
      apply hexUpper_notin (b % 16)
      simp only [List.mem_cons, List.not_mem_nil, or_false] at hmem ⊢
      tauto

theorem mem_quotePlus {y : Nat} :
    ∀ {x : Str}, y ∈ quotePlus x → ∃ b ∈ x, y ∈ quoteByte b := by
  intro x
  induction x with
  | nil => intro h; simp [quotePlus] at h
  | cons b t ih =>
    intro h
    rw [quotePlus] at h
    rcases List.mem_append.mp h with h' | h'
    · exact ⟨b, List.mem_cons_self _ _, h'⟩
    · rcases ih h' with ⟨b2, hb2, hy2⟩
      exact ⟨b2, List.mem_cons_of_mem _ hb2, hy2⟩

theorem quotePlus_notin {x : Str} {y : Nat}
    (hy : y ∈ ([47, 63, 35, 38, 61] : List Nat)) : y ∉ quotePlus x := by
  intro hm
  rcases mem_quotePlus hm with ⟨b, _, hb⟩
  exact mem_quoteByte_notin hb hy

theorem pctDecode_cons_ne (b : Nat) (t : Str) (hb : b ≠ 37) :
    pctDecode (b :: t) = b :: pctDecode t := by
  rw [pctDecode.eq_def]
  rcases t with _ | ⟨h1, t1⟩
  · simp [hb]
  · rcases t1 with _ | ⟨h2, t2⟩
    · simp [hb]
    · simp [hb]

theorem pctDecode_hex {h l : Nat} (t : Str) (hh : isHexB h = true)
    (hl : isHexB l = true) :
    pctDecode (37 :: h :: l :: t) = (hexVal h * 16 + hexVal l) :: pctDecode t := by
  rw [pctDecode.eq_def]
  simp [hh, hl]

theorem unquotePlus_quoteByte {b : Nat} (hb : b < 256) (r : Str) :
    unquotePlus (quoteByte b ++ r) = b :: unquotePlus r := by
  unfold unquotePlus quoteByte plusToSpace
  split_ifs with hs h32
  · have hb43 : b ≠ 43 := fun h => absurd (h ▸ hs) (by decide)
    have hb37 : b ≠ 37 := fun h => absurd (h ▸ hs) (by decide)
    simp only [List.cons_append, List.nil_append, List.map_cons, if_neg hb43]
    exact pctDecode_cons_ne b _ hb37
  · subst h32
    simp only [List.cons_append, List.nil_append, List.map_cons, if_pos rfl]
    exact pctDecode_cons_ne 32 _ (by omega)
  · have h1 : hexUpper (b / 16) ≠ 43 := by
      intro h
      exact hexUpper_notin (b / 16) (by rw [h]; decide)
    have h2 : hexUpper (b % 16) ≠ 43 := by
      intro h
      exact hexUpper_notin (b % 16) (by rw [h]; decide)
    simp only [List.cons_append, List.nil_append, List.map_cons,
      if_neg (by omega : ¬(37 : Nat) = 43), if_neg h1, if_neg h2]
    rw [pctDecode_hex _ (hexUpper_isHex (by omega)) (hexUpper_isHex (by omega)),
      hexVal_hexUpper (by omega), hexVal_hexUpper (by omega)]
    congr 1
    omega

theorem unquotePlus_quotePlus :
    ∀ {x : Str}, (∀ b ∈ x, b < 256) → unquotePlus (quotePlus x) = x := by
  intro x
  induction x with
  | nil => intro _; rfl
  | cons b t ih =>
    intro hx
    rw [quotePlus, unquotePlus_quoteByte (hx b (List.mem_cons_self _ _)),
      ih (fun y hy => hx y (List.mem_cons_of_mem _ hy))]

theorem splitAll_of_not_mem {c : Nat} : ∀ {a : Str}, c ∉ a → splitAll c a = [a] := by
  intro a
  induction a with
  | nil => intro _; rfl
  | cons b t ih =>
    intro hc
    have hbc : b ≠ c := fun h => hc (h ▸ List.mem_cons_self _ _)
    rw [splitAll, if_neg hbc, ih (fun h => hc (List.mem_cons_of_mem _ h))]

theorem splitAll_append {c : Nat} :
    ∀ {a : Str} (r : Str), c ∉ a → splitAll c (a ++ c :: r) = a :: splitAll c r := by
  intro a
  induction a with
  | nil => intro r _; simp [splitAll]
  | cons b t ih =>
    intro r hc
    have hbc : b ≠ c := fun h => hc (h ▸ List.mem_cons_self _ _)
    rw [List.cons_append, splitAll, if_neg hbc,
      ih r (fun h => hc (List.mem_cons_of_mem _ h))]

theorem joinAmp_cons_cons (x y : Str) (t : List Str) :
    joinAmp (x :: y :: t) = x ++ 38 :: joinAmp (y :: t) := rfl

theorem splitAll_joinAmp :
    ∀ {chunks : List Str}, chunks ≠ [] → (∀ ch ∈ chunks, (38 : Nat) ∉ ch) →
    splitAll 38 (joinAmp chunks) = chunks := by
  intro chunks
  induction chunks with
  | nil => intro h _; exact absurd rfl h
  | cons x rest ih =>
    intro _ hfree
    rcases rest with _ | ⟨y, t⟩
    · exact splitAll_of_not_mem (hfree x (List.mem_cons_self _ _))
    · rw [joinAmp_cons_cons, splitAll_append _ (hfree x (List.mem_cons_self _ _)),
        ih (by simp) (fun ch hch => hfree ch (List.mem_cons_of_mem _ hch))]

theorem mem_chunkOf {y : Nat} {kv : Str × Str} (hy : y ∈ chunkOf kv) :
    y = 61 ∨ y ∈ quotePlus kv.1 ∨ y ∈ quotePlus kv.2 := by
  unfold chunkOf at hy
  rcases List.mem_append.mp hy with h | h
  · exact Or.inr (Or.inl h)
  · rcases List.mem_cons.mp h with h' | h'
    · exact Or.inl h'
    · exact Or.inr (Or.inr h')

theorem chunkOf_no_amp (kv : Str × Str) : (38 : Nat) ∉ chunkOf kv := by
  intro h
  rcases mem_chunkOf h with h' | h' | h'
  · omega
  · exact quotePlus_notin (by decide) h'
  · exact quotePlus_notin (by decide) h'

theorem chunkOf_ne_nil (kv : Str × Str) : chunkOf kv ≠ [] := by
  unfold chunkOf
  simp

theorem splitFirst_chunkOf (kv : Str × Str) :
    splitFirst 61 (chunkOf kv) = some (quotePlus kv.1, quotePlus kv.2) :=
  splitFirst_append _ (quotePlus_notin (by decide))

theorem encodeChunks_eq_map :
    ∀ (C : List (Str × List Str)), encodeChunks C = (pairsOf C).map chunkOf := by
  intro C
  induction C with
  | nil => rfl
  | cons kv rest ih =>
    obtain ⟨k, vs⟩ := kv
    rw [encodeChunks, pairsOf, List.map_append, ih, List.map_map]
    rfl

theorem pairsOf_ne_nil {C : List (Str × List Str)} (hC : C ≠ [])
    (hvals : ∀ kv ∈ C, kv.2 ≠ []) : pairsOf C ≠ [] := by
  rcases C with _ | ⟨⟨k, vs⟩, rest⟩
  · exact absurd rfl hC
  · rw [pairsOf]
    have : vs ≠ [] := hvals (k, vs) (List.mem_cons_self _ _)
    rcases vs with _ | ⟨v, vt⟩
    · exact absurd rfl this
    · simp

theorem mem_pairsOf {kv : Str × Str} :
    ∀ {C : List (Str × List Str)}, kv ∈ pairsOf C →
    ∃ vs, (kv.1, vs) ∈ C ∧ kv.2 ∈ vs := by
  intro C
  induction C with
  | nil => intro h; simp [pairsOf] at h
  | cons e rest ih =>
    obtain ⟨k, vs⟩ := e
    intro h
    rw [pairsOf] at h
    rcases List.mem_append.mp h with h' | h'
    · rcases List.mem_map.mp h' with ⟨v, hv, he⟩
      refine ⟨vs, ?_, ?_⟩
      · rw [← he]
        exact List.mem_cons_self _ _
      · rw [← he]
        exact hv
    · rcases ih h' with ⟨vs2, h1, h2⟩
      exact ⟨vs2, List.mem_cons_of_mem _ h1, h2⟩

theorem filterMap_eq_self' {α : Type} {g : α → Option α} :
    ∀ {l : List α}, (∀ x ∈ l, g x = some x) → l.filterMap g = l := by
  intro l
  induction l with
  | nil => intro _; rfl
  | cons x t ih =>
    intro h
    rw [List.filterMap_cons, h x (List.mem_cons_self _ _),
      ih (fun y hy => h y (List.mem_cons_of_mem _ hy))]

theorem parseQsl_urlencode {C : List (Str × List Str)} (hC : C ≠ [])
    (hvals : ∀ kv ∈ C, kv.2 ≠ [])
    (hbound : ∀ kv ∈ pairsOf C, (∀ b ∈ kv.1, b < 256) ∧ (∀ b ∈ kv.2, b < 256)) :
    parseQsl (urlencodeQs C) = pairsOf C := by
  unfold parseQsl urlencodeQs
  rw [encodeChunks_eq_map,
    splitAll_joinAmp (by simpa using pairsOf_ne_nil hC hvals)
      (fun ch hch => by
        rcases List.mem_map.mp hch with ⟨kv, _, he⟩
        rw [← he]
        exact chunkOf_no_amp kv),
    List.filterMap_map]
  refine filterMap_eq_self' ?_
  intro kv hkv
  show (if chunkOf kv = [] then none else _) = some kv
  rw [if_neg (chunkOf_ne_nil kv), splitFirst_chunkOf kv]
  show some (unquotePlus (quotePlus kv.1), unquotePlus (quotePlus kv.2)) = some kv
  rw [unquotePlus_quotePlus (hbound kv hkv).1, unquotePlus_quotePlus (hbound kv hkv).2]

theorem insertQs_not_mem :
    ∀ {acc : List (Str × List Str)} {kv : Str × Str},
    kv.1 ∉ acc.map Prod.fst → insertQs acc kv = acc ++ [(kv.1, [kv.2])] := by
  intro acc
  induction acc with
  | nil => intro kv _; rfl
  | cons e rest ih =>
    intro kv h
    obtain ⟨k, vs⟩ := e
    rw [insertQs]
    rw [List.map_cons] at h
    have hk : k ≠ kv.1 := fun he => h (by rw [he]; exact List.mem_cons_self _ _)
    rw [if_neg hk, ih (fun hm => h (List.mem_cons_of_mem _ hm))]
    rfl

theorem insertQs_last :
    ∀ {acc : List (Str × List Str)} {k : Str} {u : List Str} {v : Str},
    k ∉ acc.map Prod.fst →
    insertQs (acc ++ [(k, u)]) (k, v) = acc ++ [(k, u ++ [v])] := by
  intro acc
  induction acc with
  | nil => intro k u v _; simp [insertQs]
  | cons e rest ih =>
    intro k u v h
    obtain ⟨k2, vs2⟩ := e
    rw [List.cons_append, insertQs]
    rw [List.map_cons] at h
    have hk : k2 ≠ k := fun he => h (by rw [he]; exact List.mem_cons_self _ _)
    rw [if_neg hk, ih (fun hm => h (List.mem_cons_of_mem _ hm))]
    rfl

theorem foldl_insertQs_run {k : Str} :
    ∀ (vs : List Str) (acc : List (Str × List Str)) (u : List Str),
    k ∉ acc.map Prod.fst →
    List.foldl insertQs (acc ++ [(k, u)]) (vs.map (fun v => (k, v))) =
      acc ++ [(k, u ++ vs)] := by
  intro vs
  induction vs with
  | nil => intro acc u _; simp
  | cons v vt ih =>
    intro acc u h
    rw [List.map_cons, List.foldl_cons, insertQs_last h, ih acc (u ++ [v]) h,
      List.append_assoc]
    simp

theorem foldl_insertQs_group {k : Str} (vs : List Str)
    (acc : List (Str × List Str)) (h : k ∉ acc.map Prod.fst) (hvs : vs ≠ []) :
    List.foldl insertQs acc (vs.map (fun v => (k, v))) = acc ++ [(k, vs)] := by
  rcases vs with _ | ⟨v, vt⟩
  · exact absurd rfl hvs
  · rw [List.map_cons, List.foldl_cons,
      @insertQs_not_mem acc (k, v) h, foldl_insertQs_run vt acc [v] h]
    rfl

theorem foldl_insertQs_pairsOf :
    ∀ (C : List (Str × List Str)) (acc : List (Str × List Str)),
    (C.map Prod.fst).Nodup → (∀ kv ∈ C, kv.2 ≠ []) →
    (∀ kv ∈ C, kv.1 ∉ acc.map Prod.fst) →
    List.foldl insertQs acc (pairsOf C) = acc ++ C := by
  intro C
  induction C with
  | nil => intro acc _ _ _; simp [pairsOf]
  | cons e rest ih =>
    intro acc hnd hvals hdisj
    obtain ⟨k, vs⟩ := e
    rw [pairsOf, List.foldl_append,
      foldl_insertQs_group vs acc (hdisj (k, vs) (List.mem_cons_self _ _))
        (hvals (k, vs) (List.mem_cons_self _ _)),
      ih (acc ++ [(k, vs)]) (by simpa using hnd.of_cons)
        (fun kv hkv => hvals kv (List.mem_cons_of_mem _ hkv))
        ?_, List.append_assoc]
    · rfl
    · intro kv hkv
      rw [List.map_append]
      intro hm
      rcases List.mem_append.mp hm with h' | h'
      · exact hdisj kv (List.mem_cons_of_mem _ hkv) h'
      · simp at h'
        rw [List.map_cons] at hnd
        have hnd2 := List.nodup_cons.mp hnd
        have hmem : kv.1 ∈ rest.map Prod.fst := List.mem_map_of_mem Prod.fst hkv
        exact hnd2.1 (h' ▸ hmem)

theorem parseQs_urlencode {C : List (Str × List Str)} (hC : C ≠ [])
    (hnd : (C.map Prod.fst).Nodup) (hvals : ∀ kv ∈ C, kv.2 ≠ [])
    (hbound : ∀ kv ∈ pairsOf C, (∀ b ∈ kv.1, b < 256) ∧ (∀ b ∈ kv.2, b < 256)) :
    parseQs (urlencodeQs C) = C := by
  unfold parseQs
  rw [parseQsl_urlencode hC hvals hbound,
    foldl_insertQs_pairsOf C [] hnd hvals (by simp)]
  rfl

theorem insertQs_map_fst :
    ∀ (acc : List (Str × List Str)) (kv : Str × Str),
    (insertQs acc kv).map Prod.fst =
      if kv.1 ∈ acc.map Prod.fst then acc.map Prod.fst
      else acc.map Prod.fst ++ [kv.1] := by
  intro acc
  induction acc with
  | nil => intro kv; simp [insertQs]
  | cons e rest ih =>
    intro kv
    obtain ⟨k, vs⟩ := e
    rw [insertQs]
    by_cases hk : k = kv.1
    · rw [if_pos hk]
      simp [hk]
    · rw [if_neg hk, List.map_cons, ih kv, List.map_cons]
      by_cases hm : kv.1 ∈ rest.map Prod.fst
      · rw [if_pos hm, if_pos (List.mem_cons_of_mem _ hm)]
      · rw [if_neg hm, if_neg ?_]
        · simp
        · intro hmem
          rcases List.mem_cons.mp hmem with h' | h'
          · exact hk h'.symm
          · exact hm h'

theorem foldl_insertQs_keys_nodup :
    ∀ (pairs : List (Str × Str)) (acc : List (Str × List Str)),
    (acc.map Prod.fst).Nodup →
    ((List.foldl insertQs acc pairs).map Prod.fst).Nodup := by
  intro pairs
  induction pairs with
  | nil => intro acc h; exact h
  | cons p rest ih =>
    intro acc h
    rw [List.foldl_cons]
    refine ih _ ?_
    rw [insertQs_map_fst]
    split
    · exact h
    · rename_i hnm
      simp [List.nodup_append, h, hnm]

theorem parseQs_keys_nodup (qs : Str) : ((parseQs qs).map Prod.fst).Nodup :=
  foldl_insertQs_keys_nodup _ [] (by simp)

theorem insertQs_preserves {P : Str × List Str → Prop}
    (happend : ∀ k vs v, P (k, vs) → P (k, [v]) → P (k, vs ++ [v])) :
    ∀ (acc : List (Str × List Str)) (kv : Str × Str),
    (∀ e ∈ acc, P e) → P (kv.1, [kv.2]) → ∀ e ∈ insertQs acc kv, P e := by
  intro acc
  induction acc with
  | nil =>
    intro kv _ hnew e he
    rw [insertQs] at he
    simp at he
    rw [he]
    exact hnew
  | cons e0 rest ih =>
    intro kv hacc hnew e he
    obtain ⟨k, vs⟩ := e0
    rw [insertQs] at he
    split at he
    · rename_i hk
      rcases List.mem_cons.mp he with h' | h'
      · rw [h']
        exact happend k vs kv.2 (hacc (k, vs) (List.mem_cons_self _ _))
          (by rw [hk]; exact hnew)
      · exact hacc e (List.mem_cons_of_mem _ h')
    · rcases List.mem_cons.mp he with h' | h'
      · rw [h']
        exact hacc (k, vs) (List.mem_cons_self _ _)
      · exact ih kv (fun x hx => hacc x (List.mem_cons_of_mem _ hx)) hnew e h'

theorem foldl_insertQs_preserves {P : Str × List Str → Prop}
    (happend : ∀ k vs v, P (k, vs) → P (k, [v]) → P (k, vs ++ [v])) :
    ∀ (pairs : List (Str × Str)) (acc : List (Str × List Str)),
    (∀ e ∈ acc, P e) → (∀ p ∈ pairs, P (p.1, [p.2])) →
    ∀ e ∈ List.foldl insertQs acc pairs, P e := by
  intro pairs
  induction pairs with
  | nil => intro acc hacc _; exact hacc
  | cons p rest ih =>
    intro acc hacc hp
    rw [List.foldl_cons]
    exact ih _ (insertQs_preserves happend acc p hacc (hp p (List.mem_cons_self _ _)))
      (fun x hx => hp x (List.mem_cons_of_mem _ hx))

theorem parseQs_vals_ne_nil (qs : Str) : ∀ e ∈ parseQs qs, e.2 ≠ [] := by
  refine foldl_insertQs_preserves ?_ _ [] (by simp) (by simp)
  intro k vs v _ _
  simp

theorem splitAll_ne_nil {c : Nat} : ∀ (s : Str), splitAll c s ≠ [] := by
  intro s
  induction s with
  | nil => simp [splitAll]
  | cons b t ih =>
    rw [splitAll]
    split
    · simp
    · rcases hs : splitAll c t with _ | ⟨h0, rest0⟩
      · exact absurd hs ih
      · simp

theorem mem_splitAll {c : Nat} :
    ∀ {s x : Str}, x ∈ splitAll c s → ∀ b ∈ x, b ∈ s := by
  intro s
  induction s with
  | nil =>
    intro x hx b hb
    simp [splitAll] at hx
    rw [hx] at hb
    simp at hb
  | cons b0 t ih =>
    intro x hx b hb
    rw [splitAll] at hx
    split at hx
    · rcases List.mem_cons.mp hx with h' | h'
      · rw [h'] at hb; simp at hb
      · exact List.mem_cons_of_mem _ (ih h' b hb)
    · rcases hs : splitAll c t with _ | ⟨h0, rest0⟩
      · exact absurd hs (splitAll_ne_nil t)
      · rw [hs] at hx
        rcases List.mem_cons.mp hx with h' | h'
        · rw [h'] at hb
          rcases List.mem_cons.mp hb with h2 | h2
          · rw [h2]; exact List.mem_cons_self _ _
          · refine List.mem_cons_of_mem _ (ih ?_ b h2)
            rw [hs]
            exact List.mem_cons_self _ _
        · refine List.mem_cons_of_mem _ (ih ?_ b hb)
          rw [hs]
          exact List.mem_cons_of_mem _ h'

theorem hexVal_lt (b : Nat) : hexVal b < 16 := by
  unfold hexVal
  split_ifs <;> omega

theorem pctDecode_mem_or_lt :
    ∀ (n : Nat) (s : Str), s.length ≤ n → ∀ y ∈ pctDecode s, y ∈ s ∨ y < 256 := by
  intro n
  induction n with
  | zero =>
    intro s hl y hy
    rcases s with _ | ⟨b, t⟩
    · simp [pctDecode] at hy
    · simp at hl
  | succ n ih =>
    intro s hl y hy
    rcases s with _ | ⟨b, t⟩
    · simp [pctDecode] at hy
    · by_cases hb : b = 37
      · subst hb
        rcases t with _ | ⟨h1, t1⟩
        · rw [pctDecode.eq_def] at hy
          simp [pctDecode] at hy
          omega
        · rcases t1 with _ | ⟨h2, t2⟩
          · rw [pctDecode.eq_def] at hy
            simp only at hy
            rcases List.mem_cons.mp hy with h' | h'
            · right; omega
            · rcases ih [h1] (by simp at hl ⊢; omega) y h' with h2 | h2
              · left
                exact List.mem_cons_of_mem _ h2
              · right
                exact h2
          · rw [pctDecode.eq_def] at hy
            simp only at hy
            split at hy
            · rcases List.mem_cons.mp hy with h' | h'
              · right
                have e1 := hexVal_lt h1
                have e2 := hexVal_lt h2
                omega
              · rcases ih t2 (by simp at hl ⊢; omega) y h' with hm | hm
                · left
                  exact List.mem_cons_of_mem _ (List.mem_cons_of_mem _
                    (List.mem_cons_of_mem _ hm))
                · right
                  exact hm
            · rcases List.mem_cons.mp hy with h' | h'
              · right; omega
              · rcases ih (h1 :: h2 :: t2) (by simp at hl ⊢; omega) y h' with hm | hm
                · left
                  exact List.mem_cons_of_mem _ hm
                · right
                  exact hm
      · rw [pctDecode_cons_ne b t hb] at hy
        rcases List.mem_cons.mp hy with h' | h'
        · left; rw [h']; exact List.mem_cons_self _ _
        · rcases ih t (by simp at hl ⊢; omega) y h' with hm | hm
          · left; exact List.mem_cons_of_mem _ hm
          · right; exact hm

theorem unquotePlus_bound {s : Str} (hs : ∀ b ∈ s, b < 256) :
    ∀ y ∈ unquotePlus s, y < 256 := by
  intro y hy
  have hps : ∀ b ∈ plusToSpace s, b < 256 := by
    intro b hb
    rcases List.mem_map.mp hb with ⟨b0, hb0, he⟩
    by_cases h43 : b0 = 43
    · rw [← he, if_pos h43]; omega
    · rw [← he, if_neg h43]; exact hs b0 hb0
  rcases pctDecode_mem_or_lt (plusToSpace s).length (plusToSpace s) le_rfl y hy with h | h
  · exact hps y h
  · exact h

theorem parseQsl_bounds {qs : Str} (hqs : ∀ b ∈ qs, b < 256) :
    ∀ p ∈ parseQsl qs, (∀ b ∈ p.1, b < 256) ∧ (∀ b ∈ p.2, b < 256) := by
  intro p hp
  unfold parseQsl at hp
  rcases List.mem_filterMap.mp hp with ⟨chunk, hchunk, hf⟩
  have hcb : ∀ b ∈ chunk, b < 256 := fun b hb => hqs b (mem_splitAll hchunk b hb)
  split at hf
  · exact absurd hf (by simp)
  · rcases hsp : splitFirst 61 chunk with _ | ⟨nv⟩
    · rw [hsp] at hf
      simp at hf
      rw [← hf]
      exact ⟨unquotePlus_bound hcb, by simp⟩
    · obtain ⟨nn, vv⟩ := nv
      rw [hsp] at hf
      simp at hf
      rcases splitFirst_some_spec hsp with ⟨hch, _⟩
      have hnb : ∀ b ∈ nn, b < 256 := fun b hb =>
        hcb b (by rw [hch]; exact List.mem_append.mpr (Or.inl hb))
      have hvb : ∀ b ∈ vv, b < 256 := fun b hb =>
        hcb b (by rw [hch]; exact List.mem_append.mpr (Or.inr (List.mem_cons_of_mem _ hb)))
      rw [← hf]
      exact ⟨unquotePlus_bound hnb, unquotePlus_bound hvb⟩

theorem parseQs_bounds {qs : Str} (hqs : ∀ b ∈ qs, b < 256) :
    ∀ e ∈ parseQs qs, (∀ b ∈ e.1, b < 256) ∧ (∀ v ∈ e.2, ∀ b ∈ v, b < 256) := by
  refine foldl_insertQs_preserves ?_ _ [] (by simp) ?_
  · intro k vs v h1 h2
    refine ⟨h1.1, ?_⟩
    intro v2 hv2
    rcases List.mem_append.mp hv2 with h' | h'
    · exact h1.2 v2 h'
    · simp at h'
      rw [h']
      simpa using h2.2 v (List.mem_cons_self _ _)
  · intro p hp
    have := parseQsl_bounds hqs p hp
    exact ⟨this.1, by simpa using this.2⟩

theorem lowerByte_idem (b : Nat) : lowerByte (lowerByte b) = lowerByte b := by
  by_cases h : isUpperB b = true
  · have hup : isUpperB (b + 32) = false := by
      simp [isUpperB] at h ⊢
      omega
    simp [lowerByte, h, hup]
  · simp [lowerByte, h]

theorem isAlphaB_lowerByte (b : Nat) : isAlphaB (lowerByte b) = isAlphaB b := by
  by_cases h : isUpperB b = true
  · have hb : 65 ≤ b ∧ b ≤ 90 := by simpa [isUpperB] using h
    have e1 : isAlphaB (b + 32) = true := by
      simp [isAlphaB, isUpperB, isLowerB]
      omega
    have e2 : isAlphaB b = true := by
      simp [isAlphaB, isUpperB, isLowerB]
      omega
    simp [lowerByte, h, e1, e2]
  · simp [lowerByte, h]

theorem isSchemeByte_lowerByte (b : Nat) : isSchemeByte (lowerByte b) = isSchemeByte b := by
  by_cases h : isUpperB b = true
  · have hb : 65 ≤ b ∧ b ≤ 90 := by simpa [isUpperB] using h
    have e1 : isSchemeByte (b + 32) = true := by
      simp [isSchemeByte, isAlnumB, isAlphaB, isUpperB, isLowerB, isDigitB]
      omega
    have e2 : isSchemeByte b = true := by
      simp [isSchemeByte, isAlnumB, isAlphaB, isUpperB, isLowerB, isDigitB]
      omega
    simp [lowerByte, h, e1, e2]
  · simp [lowerByte, h]

theorem splitScheme_facts (u : Str) :
    (splitScheme u).1 = [] ∨
      ((splitScheme u).1 ≠ [] ∧ isAlphaB ((splitScheme u).1.headD 0) = true ∧
       (splitScheme u).1.all isSchemeByte = true ∧
       (splitScheme u).1.map lowerByte = (splitScheme u).1) := by
  unfold splitScheme
  rcases hsp : splitFirst 58 u with _ | ⟨pre, post⟩
  · left; rfl
  · dsimp only
    split_ifs with hc
    · right
      obtain ⟨hne, halpha, hall⟩ := hc
      rcases pre with _ | ⟨a, t⟩
      · exact absurd rfl hne
      · refine ⟨by simp, ?_, ?_, ?_⟩
        · simp only [List.map_cons, List.headD_cons] at halpha ⊢
          rw [isAlphaB_lowerByte]
          exact halpha
        · simp only [List.all_map]
          refine List.all_eq_true.mpr ?_
          intro b hb
          show isSchemeByte (lowerByte b) = true
          rw [isSchemeByte_lowerByte]
          exact List.all_eq_true.mp hall b hb
        · rw [List.map_map]
          refine List.map_congr_left ?_
          intro b _
          exact lowerByte_idem b
    · left; rfl

theorem splitScheme_reconstruct {s : Str} (rest : Str) (hne : s ≠ [])
    (halpha : isAlphaB (s.headD 0) = true) (hall : s.all isSchemeByte = true)
    (hlower : s.map lowerByte = s) :
    splitScheme (s ++ 58 :: rest) = (s, rest) := by
  have h58 : (58 : Nat) ∉ s := by
    intro hm
    exact absurd (List.all_eq_true.mp hall 58 hm) (by decide)
  unfold splitScheme
  rw [splitFirst_append _ h58]
  dsimp only
  rw [if_pos ⟨hne, halpha, hall⟩, hlower]

theorem headD_append {p x : Str} (hp : p ≠ []) : (p ++ x).headD 0 = p.headD 0 := by
  rcases p with _ | ⟨a, t⟩
  · exact absurd rfl hp
  · rfl

theorem head_resolve {p : Str} {x rest : Str}
    (hhead : rest = [] ∨ rest.headD 0 ∈ ([47, 63, 35] : List Nat))
    (hre : rest = p ++ x) (hp : p ≠ []) (h63 : (63 : Nat) ∉ p) (h35 : (35 : Nat) ∉ p) :
    p.headD 0 = 47 := by
  rcases p with _ | ⟨b, t⟩
  · exact absurd rfl hp
  · rcases hhead with h | h
    · rw [hre] at h
      simp at h
    · rw [hre, headD_append (by simp)] at h
      simp only [List.headD_cons] at h ⊢
      have hb63 : b ≠ 63 := fun he => h63 (he ▸ List.mem_cons_self _ _)
      have hb35 : b ≠ 35 := fun he => h35 (he ▸ List.mem_cons_self _ _)
      simp at h
      rcases h with h | h | h
      · exact h
      · exact absurd h hb63
      · exact absurd h hb35

theorem urlsplit_facts (u : Str) :
    ((urlsplitModel u).scheme = [] ∨
      ((urlsplitModel u).scheme ≠ [] ∧
       isAlphaB ((urlsplitModel u).scheme.headD 0) = true ∧
       (urlsplitModel u).scheme.all isSchemeByte = true ∧
       (urlsplitModel u).scheme.map lowerByte = (urlsplitModel u).scheme)) ∧
    (∀ b ∈ (urlsplitModel u).netloc, b ∉ ([47, 63, 35] : List Nat)) ∧
    (63 : Nat) ∉ (urlsplitModel u).path ∧
    (35 : Nat) ∉ (urlsplitModel u).path ∧
    (35 : Nat) ∉ (urlsplitModel u).query ∧
    ((urlsplitModel u).netloc ≠ [] →
      ((urlsplitModel u).path = [] ∨ (urlsplitModel u).path.headD 0 = 47)) := by
  have hscheme := splitScheme_facts u
  unfold urlsplitModel
  rcases hss : splitScheme u with ⟨sc, rest⟩
  rw [hss] at hscheme
  simp only at hscheme
  dsimp only
  by_cases h2 : rest.take 2 = [47, 47]
  · rw [if_pos h2]
    rcases hta : takeUntilAny [47, 63, 35] (rest.drop 2) with ⟨nloc, r2⟩
    obtain ⟨hr2eq, hnloc, hr2head⟩ := takeUntilAny_spec hta
    dsimp only
    rcases hfr : splitFirst 35 r2 with _ | ⟨a, f⟩
    · have h35r2 : (35 : Nat) ∉ r2 := splitFirst_none_not_mem hfr
      dsimp only
      rcases hpq : splitFirst 63 r2 with _ | ⟨p, q⟩
      · have h63r2 : (63 : Nat) ∉ r2 := splitFirst_none_not_mem hpq
        dsimp only
        refine ⟨hscheme, hnloc, h63r2, h35r2, by simp, ?_⟩
        intro _
        rcases hr2nil : r2 with _ | ⟨b, t⟩
        · exact Or.inl rfl
        · right
          rw [← hr2nil]
          exact head_resolve (x := []) hr2head (by simp) (by rw [hr2nil]; simp) h63r2 h35r2
      · obtain ⟨hr2e, h63p⟩ := splitFirst_some_spec hpq
        dsimp only
        have hpsub : ∀ b ∈ p, b ∈ r2 := by
          intro b hb
          rw [hr2e]
          exact List.mem_append.mpr (Or.inl hb)
        have hqsub : ∀ b ∈ q, b ∈ r2 := by
          intro b hb
          rw [hr2e]
          exact List.mem_append.mpr (Or.inr (List.mem_cons_of_mem _ hb))
        refine ⟨hscheme, hnloc, h63p, fun hm => h35r2 (hpsub 35 hm),
          fun hm => h35r2 (hqsub 35 hm), ?_⟩
        intro _
        rcases hpnil : p with _ | ⟨b, t⟩
        · exact Or.inl rfl
        · right
          rw [← hpnil]
          exact head_resolve hr2head hr2e (by rw [hpnil]; simp) h63p
            (fun hm => h35r2 (hpsub 35 hm))
    · obtain ⟨hr2e, h35a⟩ := splitFirst_some_spec hfr
      dsimp only
      have hasub : ∀ b ∈ a, b ∈ r2 := by
        intro b hb
        rw [hr2e]
        exact List.mem_append.mpr (Or.inl hb)
      rcases hpq : splitFirst 63 a with _ | ⟨p, q⟩
      · have h63a : (63 : Nat) ∉ a := splitFirst_none_not_mem hpq
        dsimp only
        refine ⟨hscheme, hnloc, h63a, h35a, by simp, ?_⟩
        intro _
        rcases hanil : a with _ | ⟨b, t⟩
        · exact Or.inl rfl
        · right
          rw [← hanil]
          exact head_resolve hr2head hr2e (by rw [hanil]; simp) h63a h35a
      · obtain ⟨hae, h63p⟩ := splitFirst_some_spec hpq
        dsimp only
        have hpsub : ∀ b ∈ p, b ∈ a := by
          intro b hb
          rw [hae]
          exact List.mem_append.mpr (Or.inl hb)
        have hqsub : ∀ b ∈ q, b ∈ a := by
          intro b hb
          rw [hae]
          exact List.mem_append.mpr (Or.inr (List.mem_cons_of_mem _ hb))
        refine ⟨hscheme, hnloc, h63p, fun hm => h35a (hpsub 35 hm),
          fun hm => h35a (hqsub 35 hm), ?_⟩
        intro _
        rcases hpnil : p with _ | ⟨b, t⟩
        · exact Or.inl rfl
        · right
          rw [← hpnil]
          refine head_resolve (x := 63 :: (q ++ 35 :: f)) hr2head ?_
            (by rw [hpnil]; simp) h63p (fun hm => h35a (hpsub 35 hm))
          rw [hr2e, hae, List.append_assoc]
          rfl
  · rw [if_neg h2]
    dsimp only
    rcases hfr : splitFirst 35 rest with _ | ⟨a, f⟩
    · have h35r : (35 : Nat) ∉ rest := splitFirst_none_not_mem hfr
      dsimp only
      rcases hpq : splitFirst 63 rest with _ | ⟨p, q⟩
      · dsimp only
        exact ⟨hscheme, by simp, splitFirst_none_not_mem hpq, h35r, by simp,
          fun h => absurd rfl h⟩
      · obtain ⟨hre, h63p⟩ := splitFirst_some_spec hpq
        dsimp only
        have hpsub : ∀ b ∈ p, b ∈ rest := by
          intro b hb
          rw [hre]
          exact List.mem_append.mpr (Or.inl hb)
        have hqsub : ∀ b ∈ q, b ∈ rest := by
          intro b hb
          rw [hre]
          exact List.mem_append.mpr (Or.inr (List.mem_cons_of_mem _ hb))
        exact ⟨hscheme, by simp, h63p, fun hm => h35r (hpsub 35 hm),
          fun hm => h35r (hqsub 35 hm), fun h => absurd rfl h⟩
    · obtain ⟨hre, h35a⟩ := splitFirst_some_spec hfr
      dsimp only
      have hasub : ∀ b ∈ a, b ∈ rest := by
        intro b hb
        rw [hre]
        exact List.mem_append.mpr (Or.inl hb)
      rcases hpq : splitFirst 63 a with _ | ⟨p, q⟩
      · dsimp only
        exact ⟨hscheme, by simp, splitFirst_none_not_mem hpq, h35a, by simp,
          fun h => absurd rfl h⟩
      · obtain ⟨hae, h63p⟩ := splitFirst_some_spec hpq
        dsimp only
        have hpsub : ∀ b ∈ p, b ∈ a := by
          intro b hb
          rw [hae]
          exact List.mem_append.mpr (Or.inl hb)
        have hqsub : ∀ b ∈ q, b ∈ a := by
          intro b hb
          rw [hae]
          exact List.mem_append.mpr (Or.inr (List.mem_cons_of_mem _ hb))
        exact ⟨hscheme, by simp, h63p, fun hm => h35a (hpsub 35 hm),
          fun hm => h35a (hqsub 35 hm), fun h => absurd rfl h⟩

theorem getLast_mem_of_eq {l : Str} {a : Nat} (h : l.getLast? = some a) : a ∈ l := by
  rw [← List.head?_reverse] at h
  rcases hr : l.reverse with _ | ⟨b, t⟩
  · rw [hr] at h; simp at h
  · rw [hr] at h
    simp at h
    rw [← List.mem_reverse, hr, h]
    exact List.mem_cons_self _ _

theorem dropWhile_head_false {p : Nat → Bool} :
    ∀ {l : Str} {a : Nat}, (l.dropWhile p).head? = some a → p a = false := by
  intro l
  induction l with
  | nil => intro a h; simp [List.dropWhile] at h
  | cons b t ih =>
    intro a h
    rw [List.dropWhile_cons] at h
    split at h
    · exact ih h
    · simp at h
      rw [← h]
      rename_i hb
      simpa using hb

theorem dropWhile_of_head_false {p : Nat → Bool} {l : Str}
    (h : ∀ a, l.head? = some a → p a = false) : l.dropWhile p = l := by
  rcases l with _ | ⟨b, t⟩
  · rfl
  · rw [List.dropWhile_cons, if_neg (by simp [h b rfl])]

theorem rstripSlash_append {x p : Str} (hx : x.getLast? ≠ some 47) :
    rstripSlash (x ++ p) = x ++ rstripSlash p := by
  unfold rstripSlash
  have hxr : List.dropWhile (fun b => decide (b = 47)) x.reverse = x.reverse := by
    refine dropWhile_of_head_false ?_
    intro a ha
    rw [List.head?_reverse] at ha
    have : a ≠ 47 := fun he => hx (he ▸ ha)
    simpa using this
  rw [List.reverse_append, List.dropWhile_append]
  split
  · rename_i hemp
    rw [List.isEmpty_iff] at hemp
    rw [hemp, hxr]
    simp
  · rw [List.reverse_append, List.reverse_reverse]

theorem mem_rstripSlash {p : Str} {b : Nat} (h : b ∈ rstripSlash p) : b ∈ p := by
  unfold rstripSlash at h
  rw [List.mem_reverse] at h
  have := (List.dropWhile_suffix _).sublist.subset h
  simpa using this

theorem rstripSlash_getLast (p : Str) :
    rstripSlash p = [] ∨ (rstripSlash p).getLast? ≠ some 47 := by
  unfold rstripSlash
  rcases hr : List.dropWhile (fun b => decide (b = 47)) p.reverse with _ | ⟨b, t⟩
  · left; rfl
  · right
    rw [List.getLast?_reverse]
    have hb := dropWhile_head_false (p := fun b => decide (b = 47))
      (l := p.reverse) (a := b) (by rw [hr]; rfl)
    simp at hb
    intro he
    simp at he
    exact hb he

theorem rstripSlash_head (p : Str) :
    rstripSlash p = [] ∨ (rstripSlash p).headD 0 = p.headD 0 := by
  unfold rstripSlash
  rcases hr : List.dropWhile (fun b => decide (b = 47)) p.reverse with _ | ⟨b, t⟩
  · left; rfl
  · right
    obtain ⟨pre, hpre⟩ := List.dropWhile_suffix (l := p.reverse) (fun b => decide (b = 47))
    rw [hr] at hpre
    have hlast : p.reverse.getLast? = (b :: t).getLast? := by
      rw [← hpre, List.getLast?_append]
      rcases hbl : (b :: t).getLast? with _ | a
      · rw [List.getLast?_eq_none_iff] at hbl
        simp at hbl
      · simp
    rw [List.headD_eq_head?, List.head?_reverse, ← hlast, List.getLast?_reverse,
      ← List.headD_eq_head?]

theorem splitLast_spec {c : Nat} {s bf af : Str} (h : splitLast c s = some (bf, af)) :
    s = bf ++ c :: af ∧ c ∉ af := by
  unfold splitLast at h
  rcases hsp : splitFirst c s.reverse with _ | ⟨rl, ll⟩
  · rw [hsp] at h; simp at h
  · rw [hsp] at h
    simp at h
    obtain ⟨hrev, hnm⟩ := splitFirst_some_spec hsp
    obtain ⟨rfl, rfl⟩ := h
    constructor
    · have : s.reverse.reverse = (rl ++ c :: ll).reverse := by rw [hrev]
      rw [List.reverse_reverse] at this
      rw [this]
      simp
    · simpa using hnm

theorem splitParams_facts (p0 : Str) :
    (∀ b ∈ (splitParams p0).1, b ∈ p0) ∧
    ((splitParams p0).1 = [] ∨ (splitParams p0).1.headD 0 = p0.headD 0) := by
  unfold splitParams
  rcases hsl : splitLast 47 p0 with _ | ⟨bf, af⟩
  · dsimp only
    rcases hsp : splitFirst 59 p0 with _ | ⟨a, rest⟩
    · dsimp only
      exact ⟨fun b hb => hb, Or.inr rfl⟩
    · obtain ⟨hpe, _⟩ := splitFirst_some_spec hsp
      dsimp only
      constructor
      · intro b hb
        rw [hpe]
        exact List.mem_append.mpr (Or.inl hb)
      · rcases a with _ | ⟨x, t⟩
        · exact Or.inl rfl
        · right
          rw [hpe]
          rfl
  · obtain ⟨hpe, hnaf⟩ := splitLast_spec hsl
    dsimp only
    rcases hsp : splitFirst 59 af with _ | ⟨a2, rest⟩
    · dsimp only
      exact ⟨fun b hb => hb, Or.inr rfl⟩
    · obtain ⟨hafe, _⟩ := splitFirst_some_spec hsp
      dsimp only
      constructor
      · intro b hb
        rw [hpe, hafe]
        rcases List.mem_append.mp hb with h | h
        · exact List.mem_append.mpr (Or.inl h)
        · rcases List.mem_cons.mp h with h' | h'
          · rw [h']
            exact List.mem_append.mpr (Or.inr (List.mem_cons_self _ _))
          · exact List.mem_append.mpr (Or.inr (List.mem_cons_of_mem _
              (List.mem_append.mpr (Or.inl h'))))
      · right
        rcases bf with _ | ⟨x, t⟩
        · rw [hpe]
          rfl
        · rw [hpe]
          rfl

theorem urlparse_vs_urlsplit (u : Str) :
    (urlparseModel u).scheme = (urlsplitModel u).scheme ∧
    (urlparseModel u).netloc = (urlsplitModel u).netloc ∧
    (urlparseModel u).query = (urlsplitModel u).query ∧
    (∀ b ∈ (urlparseModel u).path, b ∈ (urlsplitModel u).path) ∧
    ((urlparseModel u).path = [] ∨
      (urlparseModel u).path.headD 0 = (urlsplitModel u).path.headD 0) := by
  unfold urlparseModel
  dsimp only
  split
  · dsimp only
    have h := splitParams_facts (urlsplitModel u).path
    exact ⟨rfl, rfl, rfl, h.1, h.2⟩
  · exact ⟨rfl, rfl, rfl, fun b hb => hb, Or.inr rfl⟩

theorem mem_joinAmp {y : Nat} :
    ∀ {l : List Str}, y ∈ joinAmp l → y = 38 ∨ ∃ ch ∈ l, y ∈ ch := by
  intro l
  induction l with
  | nil => intro h; simp [joinAmp] at h
  | cons x rest ih =>
    intro h
    rcases rest with _ | ⟨x2, t⟩
    · exact Or.inr ⟨x, List.mem_cons_self _ _, h⟩
    · rw [joinAmp_cons_cons] at h
      rcases List.mem_append.mp h with h' | h'
      · exact Or.inr ⟨x, List.mem_cons_self _ _, h'⟩
      · rcases List.mem_cons.mp h' with h2 | h2
        · exact Or.inl h2
        · rcases ih h2 with h3 | ⟨ch, hch, hy⟩
          · exact Or.inl h3
          · exact Or.inr ⟨ch, List.mem_cons_of_mem _ hch, hy⟩

theorem urlencodeQs_notin {C : List (Str × List Str)} {y : Nat}
    (hy : y ∈ ([47, 63, 35] : List Nat)) : y ∉ urlencodeQs C := by
  intro hm
  unfold urlencodeQs at hm
  rcases mem_joinAmp hm with h | ⟨ch, hch, hyc⟩
  · rw [h] at hy
    simp at hy
  · rw [encodeChunks_eq_map] at hch
    rcases List.mem_map.mp hch with ⟨kv, _, he⟩
    rw [← he] at hyc
    rcases mem_chunkOf hyc with h' | h' | h'
    · rw [h'] at hy
      simp at hy
    · refine quotePlus_notin ?_ h'
      simp at hy ⊢
      tauto
    · refine quotePlus_notin ?_ h'
      simp at hy ⊢
      tauto

theorem urlencodeQs_ne_nil {C : List (Str × List Str)} (hC : C ≠ [])
    (hvals : ∀ kv ∈ C, kv.2 ≠ []) : urlencodeQs C ≠ [] := by
  unfold urlencodeQs
  rw [encodeChunks_eq_map]
  rcases hpc : pairsOf C with _ | ⟨kv, rest⟩
  · exact absurd hpc (pairsOf_ne_nil hC hvals)
  · rcases rest with _ | ⟨kv2, t⟩
    · rw [List.map_cons, List.map_nil, joinAmp]
      exact chunkOf_ne_nil kv
    · rw [List.map_cons, List.map_cons, joinAmp_cons_cons]
      intro h
      rcases List.append_eq_nil.mp h with ⟨h1, h2⟩
      exact chunkOf_ne_nil kv h1

theorem urlencodeQs_getLast {C : List (Str × List Str)} (hC : C ≠ [])
    (hvals : ∀ kv ∈ C, kv.2 ≠ []) : (urlencodeQs C).getLast? ≠ some 47 := by
  intro h
  exact urlencodeQs_notin (by decide) (getLast_mem_of_eq h)

theorem urlsplit_reconstruct_noquery {s n p : Str} (hne : s ≠ [])
    (halpha : isAlphaB (s.headD 0) = true) (hall : s.all isSchemeByte = true)
    (hlower : s.map lowerByte = s)
    (hn : n ≠ []) (hnmem : ∀ b ∈ n, b ∉ ([47, 63, 35] : List Nat))
    (hp63 : (63 : Nat) ∉ p) (hp35 : (35 : Nat) ∉ p)
    (hphead : p = [] ∨ p.headD 0 = 47) :
    urlsplitModel (s ++ 58 :: 47 :: 47 :: (n ++ p)) = ⟨s, n, p, [], [], []⟩ := by
  unfold urlsplitModel
  rw [splitScheme_reconstruct _ hne halpha hall hlower]
  dsimp only
  rw [if_pos (by rfl)]
  have hdrop : (47 :: 47 :: (n ++ p) : Str).drop 2 = n ++ p := rfl
  rw [hdrop, takeUntilAny_append p hnmem ?_]
  · dsimp only
    rw [splitFirst_of_not_mem hp35]
    dsimp only
    rw [splitFirst_of_not_mem hp63]
  · rcases hphead with h | h
    · exact Or.inl h
    · right
      rw [h]
      simp

theorem urlsplit_reconstruct_query {s n p q : Str} (hne : s ≠ [])
    (halpha : isAlphaB (s.headD 0) = true) (hall : s.all isSchemeByte = true)
    (hlower : s.map lowerByte = s)
    (hn : n ≠ []) (hnmem : ∀ b ∈ n, b ∉ ([47, 63, 35] : List Nat))
    (hp63 : (63 : Nat) ∉ p) (hp35 : (35 : Nat) ∉ p)
    (hphead : p = [] ∨ p.headD 0 = 47)
    (hq35 : (35 : Nat) ∉ q) :
    urlsplitModel (s ++ 58 :: 47 :: 47 :: (n ++ (p ++ 63 :: q))) =
      ⟨s, n, p, [], q, []⟩ := by
  unfold urlsplitModel
  rw [splitScheme_reconstruct _ hne halpha hall hlower]
  dsimp only
  rw [if_pos (by rfl)]
  have hdrop : (47 :: 47 :: (n ++ (p ++ 63 :: q)) : Str).drop 2 = n ++ (p ++ 63 :: q) := rfl
  rw [hdrop, takeUntilAny_append (p ++ 63 :: q) hnmem ?_]
  · have h35 : splitFirst 35 (p ++ 63 :: q) = none := by
      refine splitFirst_of_not_mem ?_
      intro hm
      rcases List.mem_append.mp hm with h | h
      · exact hp35 h
      · rcases List.mem_cons.mp h with h' | h'
        · simp at h'
        · exact hq35 h'
    dsimp only
    rw [h35]
    dsimp only
    rw [splitFirst_append q hp63]
  · rcases hphead with h | h
    · right
      rw [h]
      simp
    · right
      rw [headD_append ?_, h]
      · simp
      · rcases p with _ | ⟨b, t⟩
        · simp at h
        · simp

theorem urlparse_reconstruct_noquery {s n p : Str} (hne : s ≠ [])
    (halpha : isAlphaB (s.headD 0) = true) (hall : s.all isSchemeByte = true)
    (hlower : s.map lowerByte = s)
    (hn : n ≠ []) (hnmem : ∀ b ∈ n, b ∉ ([47, 63, 35] : List Nat))
    (hp63 : (63 : Nat) ∉ p) (hp35 : (35 : Nat) ∉ p)
    (hphead : p = [] ∨ p.headD 0 = 47) (hp59 : (59 : Nat) ∉ p) :
    urlparseModel (s ++ 58 :: 47 :: 47 :: (n ++ p)) = ⟨s, n, p, [], [], []⟩ := by
  unfold urlparseModel
  rw [urlsplit_reconstruct_noquery hne halpha hall hlower hn hnmem hp63 hp35 hphead]
  dsimp only
  rw [if_neg (fun hc => hp59 hc.2)]

theorem urlparse_reconstruct_query {s n p q : Str} (hne : s ≠ [])
    (halpha : isAlphaB (s.headD 0) = true) (hall : s.all isSchemeByte = true)
    (hlower : s.map lowerByte = s)
    (hn : n ≠ []) (hnmem : ∀ b ∈ n, b ∉ ([47, 63, 35] : List Nat))
    (hp63 : (63 : Nat) ∉ p) (hp35 : (35 : Nat) ∉ p)
    (hphead : p = [] ∨ p.headD 0 = 47) (hp59 : (59 : Nat) ∉ p)
    (hq35 : (35 : Nat) ∉ q) :
    urlparseModel (s ++ 58 :: 47 :: 47 :: (n ++ (p ++ 63 :: q))) =
      ⟨s, n, p, [], q, []⟩ := by
  unfold urlparseModel
  rw [urlsplit_reconstruct_query hne halpha hall hlower hn hnmem hp63 hp35 hphead hq35]
  dsimp only
  rw [if_neg (fun hc => hp59 hc.2)]

theorem base_getLast {s n p : Str} (hp : p ≠ []) :
    (s ++ 58 :: 47 :: 47 :: (n ++ p)).getLast? = p.getLast? := by
  rw [show s ++ 58 :: 47 :: 47 :: (n ++ p) = (s ++ [58, 47, 47] ++ n) ++ p from by simp]
  exact List.getLast?_append_of_ne_nil _ hp

theorem cleanUrl_fix_noquery {s n p : Str} (hne : s ≠ [])
    (halpha : isAlphaB (s.headD 0) = true) (hall : s.all isSchemeByte = true)
    (hlower : s.map lowerByte = s)
    (hn : n ≠ []) (hnmem : ∀ b ∈ n, b ∉ ([47, 63, 35] : List Nat))
    (hp63 : (63 : Nat) ∉ p) (hp35 : (35 : Nat) ∉ p)
    (hphead : p = [] ∨ p.headD 0 = 47) (hp59 : (59 : Nat) ∉ p)
    (hplast : p.getLast? ≠ some 47 ∨ ¬ p.length > 1) :
    cleanUrl (s ++ 58 :: 47 :: 47 :: (n ++ p)) = s ++ 58 :: 47 :: 47 :: (n ++ p) := by
  have hnil : ¬(([] : Str) ≠ []) := fun h => h rfl
  have hnc : ¬ ((s ++ 58 :: 47 :: 47 :: (n ++ p)).getLast? = some 47 ∧ p.length > 1) := by
    intro hcond
    obtain ⟨hc1, hc2⟩ := hcond
    have hpne : p ≠ [] := by
      intro he
      rw [he] at hc2
      simp at hc2
    rcases hplast with h | h
    · rw [base_getLast hpne] at hc1
      exact h hc1
    · exact h hc2
  unfold cleanUrl
  rw [urlparse_reconstruct_noquery hne halpha hall hlower hn hnmem hp63 hp35 hphead hp59]
  dsimp only
  rw [if_neg hnil, if_neg hnc]

theorem cleanUrl_fix_stripped {s n p : Str} (hne : s ≠ [])
    (halpha : isAlphaB (s.headD 0) = true) (hall : s.all isSchemeByte = true)
    (hlower : s.map lowerByte = s)
    (hn : n ≠ []) (hnmem : ∀ b ∈ n, b ∉ ([47, 63, 35] : List Nat))
    (hp63 : (63 : Nat) ∉ p) (hp35 : (35 : Nat) ∉ p)
    (hphead : p = [] ∨ p.headD 0 = 47) (hp59 : (59 : Nat) ∉ p) :
    cleanUrl (if (s ++ 58 :: 47 :: 47 :: (n ++ p)).getLast? = some 47 ∧ p.length > 1
      then rstripSlash (s ++ 58 :: 47 :: 47 :: (n ++ p))
      else s ++ 58 :: 47 :: 47 :: (n ++ p)) =
    (if (s ++ 58 :: 47 :: 47 :: (n ++ p)).getLast? = some 47 ∧ p.length > 1
      then rstripSlash (s ++ 58 :: 47 :: 47 :: (n ++ p))
      else s ++ 58 :: 47 :: 47 :: (n ++ p)) := by
  have hnlast : n.getLast? ≠ some 47 := by
    intro h
    exact hnmem _ (getLast_mem_of_eq h) (by simp)
  by_cases hcond : (s ++ 58 :: 47 :: 47 :: (n ++ p)).getLast? = some 47 ∧ p.length > 1
  · rw [if_pos hcond]
    obtain ⟨hc1, hc2⟩ := hcond
    have hpne : p ≠ [] := by
      intro he
      rw [he] at hc2
      simp at hc2
    have hx : (s ++ 58 :: 47 :: 47 :: n).getLast? ≠ some 47 := by
      rw [show s ++ 58 :: 47 :: 47 :: n = (s ++ [58, 47, 47]) ++ n from by simp,
        List.getLast?_append_of_ne_nil _ hn]
      exact hnlast
    rw [show s ++ 58 :: 47 :: 47 :: (n ++ p) = (s ++ 58 :: 47 :: 47 :: n) ++ p from by simp,
      rstripSlash_append hx,
      show (s ++ 58 :: 47 :: 47 :: n) ++ rstripSlash p
        = s ++ 58 :: 47 :: 47 :: (n ++ rstripSlash p) from by simp]
    have hph47 : p.headD 0 = 47 := by
      rcases hphead with h | h
      · exact absurd h hpne
      · exact h
    refine cleanUrl_fix_noquery hne halpha hall hlower hn hnmem
      (fun h => hp63 (mem_rstripSlash h)) (fun h => hp35 (mem_rstripSlash h)) ?_
      (fun h => hp59 (mem_rstripSlash h)) ?_
    · rcases rstripSlash_head p with h | h
      · exact Or.inl h
      · right
        rw [h, hph47]
    · left
      rcases rstripSlash_getLast p with h | h
      · rw [h]
        simp
      · exact h
  · rw [if_neg hcond]
    refine cleanUrl_fix_noquery hne halpha hall hlower hn hnmem hp63 hp35 hphead hp59 ?_
    by_cases hlen : p.length > 1
    · left
      intro hpl
      refine hcond ⟨?_, hlen⟩
      have hpne : p ≠ [] := by
        intro he
        rw [he] at hpl
        simp at hpl
      rw [base_getLast hpne]
      exact hpl
    · exact Or.inr hlen

theorem cleanUrl_fix_query {s n p : Str} {C : List (Str × List Str)} (hne : s ≠ [])
    (halpha : isAlphaB (s.headD 0) = true) (hall : s.all isSchemeByte = true)
    (hlower : s.map lowerByte = s)
    (hn : n ≠ []) (hnmem : ∀ b ∈ n, b ∉ ([47, 63, 35] : List Nat))
    (hp63 : (63 : Nat) ∉ p) (hp35 : (35 : Nat) ∉ p)
    (hphead : p = [] ∨ p.headD 0 = 47) (hp59 : (59 : Nat) ∉ p)
    (hC : C ≠ []) (hnd : (C.map Prod.fst).Nodup) (hvals : ∀ kv ∈ C, kv.2 ≠ [])
    (hbound : ∀ kv ∈ pairsOf C, (∀ b ∈ kv.1, b < 256) ∧ (∀ b ∈ kv.2, b < 256))
    (hfilt : C.filter (fun kv => decide (kv.1 ∉ trackingParams)) = C) :
    cleanUrl (s ++ 58 :: 47 :: 47 :: (n ++ p ++ 63 :: urlencodeQs C)) =
      s ++ 58 :: 47 :: 47 :: (n ++ p ++ 63 :: urlencodeQs C) := by
  have hE : urlencodeQs C ≠ [] := urlencodeQs_ne_nil hC hvals
  have h35E : (35 : Nat) ∉ urlencodeQs C := urlencodeQs_notin (by decide)
  have hnc : ¬ ((s ++ 58 :: 47 :: 47 :: (n ++ p ++ 63 :: urlencodeQs C)).getLast? = some 47
      ∧ p.length > 1) := by
    intro hcond
    have h1 : (s ++ 58 :: 47 :: 47 :: (n ++ p ++ 63 :: urlencodeQs C)).getLast?
        = (urlencodeQs C).getLast? := by
      rw [show s ++ 58 :: 47 :: 47 :: (n ++ p ++ 63 :: urlencodeQs C)
          = (s ++ [58, 47, 47] ++ (n ++ p) ++ [63]) ++ urlencodeQs C from by simp,
        List.getLast?_append_of_ne_nil _ hE]
    rw [h1] at hcond
    exact urlencodeQs_getLast hC hvals hcond.1
  have hparse : urlparseModel (s ++ 58 :: 47 :: 47 :: (n ++ p ++ 63 :: urlencodeQs C)) =
      ⟨s, n, p, [], urlencodeQs C, []⟩ := by
    rw [show (n ++ p ++ 63 :: urlencodeQs C : Str) = n ++ (p ++ 63 :: urlencodeQs C) from
      List.append_assoc n p _]
    exact urlparse_reconstruct_query hne halpha hall hlower hn hnmem hp63 hp35 hphead hp59 h35E
  unfold cleanUrl
  rw [hparse]
  dsimp only
  rw [if_pos hE, parseQs_urlencode hC hnd hvals hbound, hfilt, if_pos hC, if_neg hnc]

/-- C5 (amended): `clean_url` is idempotent on absolute URLs with a nonempty
scheme and netloc whose parsed path carries no `;` path-parameter residue and
whose query holds only genuine bytes; the unamended claim is refuted by
`c5_clean_url_not_idempotent`. -/
theorem c5_clean_url_idempotent_canonical (u : Str)
    (hs : (urlsplitModel u).scheme ≠ [])
    (hn : (urlsplitModel u).netloc ≠ [])
    (hsemi : (59 : Nat) ∉ (urlparseModel u).path)
    (hq : ∀ b ∈ (urlsplitModel u).query, b < 256) :
    cleanUrl (cleanUrl u) = cleanUrl u := by
  obtain ⟨hschemeF, hnmem0, hp63s, hp35s, hq35s, hheadF⟩ := urlsplit_facts u
  obtain ⟨hes, hen, heq, hpsub, hphead0⟩ := urlparse_vs_urlsplit u
  rcases hschemeF with h0 | ⟨_, halpha0, hall0, hlower0⟩
  · exact absurd h0 hs
  have hsne : (urlparseModel u).scheme ≠ [] := by rw [hes]; exact hs
  have halpha : isAlphaB ((urlparseModel u).scheme.headD 0) = true := by
    rw [hes]
    exact halpha0
  have hall : (urlparseModel u).scheme.all isSchemeByte = true := by
    rw [hes]
    exact hall0
  have hlower : (urlparseModel u).scheme.map lowerByte = (urlparseModel u).scheme := by
    rw [hes]
    exact hlower0
  have hnne : (urlparseModel u).netloc ≠ [] := by rw [hen]; exact hn
  have hnmem : ∀ b ∈ (urlparseModel u).netloc, b ∉ ([47, 63, 35] : List Nat) := by
    rw [hen]
    exact hnmem0
  have hp63 : (63 : Nat) ∉ (urlparseModel u).path := fun h => hp63s (hpsub _ h)
  have hp35 : (35 : Nat) ∉ (urlparseModel u).path := fun h => hp35s (hpsub _ h)
  have hphead : (urlparseModel u).path = [] ∨ (urlparseModel u).path.headD 0 = 47 := by
    rcases hphead0 with h | h
    · exact Or.inl h
    · rcases hheadF hn with h2 | h2
      · left
        rcases hpe : (urlparseModel u).path with _ | ⟨b, t⟩
        · rfl
        · exfalso
          have hbm := hpsub b (by rw [hpe]; exact List.mem_cons_self _ _)
          rw [h2] at hbm
          simp at hbm
      · right
        rw [h, h2]
  have hqb : ∀ b ∈ (urlparseModel u).query, b < 256 := by rw [heq]; exact hq
  set S := (urlparseModel u).scheme with hS
  set N := (urlparseModel u).netloc with hN
  set P := (urlparseModel u).path with hP
  set Q := (urlparseModel u).query with hQ
  set Cf := (parseQs Q).filter (fun kv => decide (kv.1 ∉ trackingParams)) with hCf
  by_cases hcq : Q ≠ [] ∧ Cf ≠ []
  · obtain ⟨hqne, hCne⟩ := hcq
    have hvalsC : ∀ kv ∈ Cf, kv.2 ≠ [] :=
      fun kv hkv => parseQs_vals_ne_nil _ kv (List.mem_of_mem_filter hkv)
    have hndC : (Cf.map Prod.fst).Nodup := by
      rw [hCf]
      exact List.Nodup.sublist (List.Sublist.map Prod.fst (List.filter_sublist _))
        (parseQs_keys_nodup _)
    have hboundC : ∀ kv ∈ pairsOf Cf,
        (∀ b ∈ kv.1, b < 256) ∧ (∀ b ∈ kv.2, b < 256) := by
      intro kv hkv
      obtain ⟨vs, hmem, hv⟩ := mem_pairsOf hkv
      rw [hCf] at hmem
      have hmemL := List.mem_of_mem_filter hmem
      have hb := parseQs_bounds hqb _ hmemL
      exact ⟨hb.1, hb.2 kv.2 hv⟩
    have hfiltC : Cf.filter (fun kv => decide (kv.1 ∉ trackingParams)) = Cf := by
      refine List.filter_eq_self.mpr ?_
      intro a ha
      rw [hCf] at ha
      have haf := List.of_mem_filter ha
      exact haf
    have hEne : urlencodeQs Cf ≠ [] := urlencodeQs_ne_nil hCne hvalsC
    have hnc : ¬ ((S ++ 58 :: 47 :: 47 :: (N ++ P ++ 63 :: urlencodeQs Cf)).getLast? = some 47
        ∧ P.length > 1) := by
      intro hcond
      have h1 : (S ++ 58 :: 47 :: 47 :: (N ++ P ++ 63 :: urlencodeQs Cf)).getLast?
          = (urlencodeQs Cf).getLast? := by
        rw [show S ++ 58 :: 47 :: 47 :: (N ++ P ++ 63 :: urlencodeQs Cf)
            = (S ++ [58, 47, 47] ++ (N ++ P) ++ [63]) ++ urlencodeQs Cf from by simp,
          List.getLast?_append_of_ne_nil _ hEne]
      rw [h1] at hcond
      exact urlencodeQs_getLast hCne hvalsC hcond.1
    have hB : cleanUrl u = S ++ 58 :: 47 :: 47 :: (N ++ P ++ 63 :: urlencodeQs Cf) := by
      unfold cleanUrl
      dsimp only
      rw [← hS, ← hN, ← hP, ← hQ, ← hCf, if_pos hqne, if_pos hCne, if_neg hnc]
    rw [hB]
    exact cleanUrl_fix_query hsne halpha hall hlower hnne hnmem hp63 hp35 hphead hsemi
      hCne hndC hvalsC hboundC hfiltC
  · have hB : cleanUrl u =
        (if (S ++ 58 :: 47 :: 47 :: (N ++ P)).getLast? = some 47 ∧ P.length > 1
          then rstripSlash (S ++ 58 :: 47 :: 47 :: (N ++ P))
          else S ++ 58 :: 47 :: 47 :: (N ++ P)) := by
      unfold cleanUrl
      dsimp only
      rw [← hS, ← hN, ← hP, ← hQ, ← hCf]
      by_cases hA : Q ≠ []
      · rw [if_pos hA, if_neg (fun hBne => hcq ⟨hA, hBne⟩)]
      · rw [if_neg hA]
    rw [hB]
    exact cleanUrl_fix_stripped hsne halpha hall hlower hnne hnmem hp63 hp35 hphead hsemi

theorem c5_clean_url_idempotent_canonical_witness :
    (urlsplitModel (bs ("https://www.example.com/products/?utm_source=x&id=5"))).scheme ≠ [] ∧
    (urlsplitModel (bs ("https://www.example.com/products/?utm_source=x&id=5"))).netloc ≠ [] ∧
    (59 : Nat) ∉
      (urlparseModel (bs ("https://www.example.com/products/?utm_source=x&id=5"))).path ∧
    (∀ b ∈ (urlsplitModel (bs ("https://www.example.com/products/?utm_source=x&id=5"))).query,
      b < 256) ∧
    cleanUrl (cleanUrl (bs ("https://www.example.com/products/?utm_source=x&id=5"))) =
      cleanUrl (bs ("https://www.example.com/products/?utm_source=x&id=5")) :=
  ⟨by decide, by decide, by decide, by decide,
    c5_clean_url_idempotent_canonical _ (by decide) (by decide) (by decide) (by decide)⟩
